import Mathlib

/-!
# Echo server on io_uring: embedding of `src/server/echo_server.cpp`

The program is one `main` function: it parses the port, sets up the listening
socket and the ring, and then runs the submit / wait / drain loop.  The
embedding keeps the program state explicit:

* `listen_data` is the record on `main`'s stack, heap records created by
  `new QueueData` live in `heap` and are addressed by the value `new` returned;
* the ring is split into the requests prepared since the last
  `io_uring_submit` (`sq`), the requests handed to the kernel (`inflight`) and
  the completions not yet marked seen (`cq`);
* `fds` is the descriptor table of the process, `log` the sequence of calls
  with an effect outside the function (marking a completion seen, preparing a
  request, `accept4`, `shutdown`, `delete[]`).

Modelling decisions, all on the side of the environment:

* `new` hands out addresses from a counter and never reuses one, so that a tag
  whose record has been deleted is recognisable as dangling;
* the ring has `URING_ENTRIES` slots: once that many requests are prepared
  since the last `io_uring_submit`, `io_uring_get_sqe` returns the null pointer,
  and the source, which uses the result unchecked, fails on it;
* `mem` holds the contents of the buffers; the kernel stores the bytes of a
  `readv` there before it posts the completion;
* the values `accept4` returns while one listener completion is handled are
  an input of `dispatch`.
-/

namespace EchoServer

/-! ## Constants -/

def MAX_LENGTH : Nat := 4096
def URING_ENTRIES : Nat := 64
def BACKLOG : Nat := 32
def DEFAULT_PORT : Nat := 42390

/-- The readiness mask passed to every `io_uring_prep_poll_add`. -/
def POLL_IN : Nat := 1

/-! ## Data model -/

/-- Values of `enum class EventType`; the underlying type is an integer, the
four enumerators are `0 .. 3` and the `switch` has a `default` arm for any
other value. -/
abbrev EventType := Nat

def kListen : EventType := 0
def kPollin : EventType := 1
def kRead : EventType := 2
def kWrite : EventType := 3

/-- An `iovec`: `iov_base` is `none` for the null pointer. -/
structure IoVec where
  iov_base : Option Nat
  iov_len : Nat
  deriving DecidableEq, Repr

/-- The record `struct QueueData`. -/
structure QueueData where
  fd_ : Int
  type_ : EventType
  buf_ : IoVec
  deriving DecidableEq, Repr

/-- The constructor `QueueData(fd, type)`: `buf_` is value-initialised. -/
def QueueData.new (fd : Int) (type : EventType) : QueueData :=
  { fd_ := fd, type_ := type, buf_ := { iov_base := none, iov_len := 0 } }

/-- The pointer stored as user data of a request: the address of the stack
record `listen_data`, or of a heap record. -/
inductive Tag where
  | listen_data
  | heap (addr : Nat)
  deriving DecidableEq, Repr

/-- The operation a submission queue entry was prepared with. -/
inductive Op where
  | poll_add (fd : Int) (poll_mask : Nat)
  | readv (fd : Int) (iov : IoVec) (nr_vecs : Nat) (offset : Nat)
  | write (fd : Int) (buf : Option Nat) (nbytes : Nat) (offset : Nat)
  deriving DecidableEq, Repr

/-- The descriptor an operation targets. -/
def Op.fd : Op → Int
  | .poll_add fd _ => fd
  | .readv fd _ _ _ => fd
  | .write fd _ _ _ => fd

/-- A submission queue entry after `io_uring_prep_*` and `io_uring_sqe_set_data`. -/
structure Sqe where
  op : Op
  user_data : Tag
  deriving DecidableEq, Repr

/-- A completion queue entry: the tag of the request and its signed result.
The field `data` is not part of `io_uring_cqe`: it records the bytes the kernel
stored in the buffer of a `readv` before it posted the completion, and no
program step reads it. -/
structure Cqe where
  user_data : Tag
  res : Int
  data : List Nat := []
  deriving DecidableEq, Repr

/-- Calls whose effect leaves the function, in program order. -/
inductive Effect where
  | cqe_seen (c : Cqe)
  | prep (e : Sqe)
  | accept4 (listen_fd : Int) (ret : Int)
  | shutdown (fd : Int)
  | delete_buf (base : Option Nat)
  deriving DecidableEq, Repr

/-- Ways the handling of one completion ends without reaching `break`. -/
inductive Abort where
  | assert_false
  | dangling_tag
  | delete_of_stack_record
  | accept_script_ended
  | null_sqe
  deriving DecidableEq, Repr

/-- State of the process between two statements of the loop. -/
structure State where
  server_sock : Int
  listen_data : QueueData
  heap : List (Nat × QueueData)
  next_ptr : Nat
  fds : List Int
  sq : List Sqe
  inflight : List Sqe
  cq : List Cqe
  log : List Effect
  mem : List (Nat × List Nat)
  deriving DecidableEq, Repr

/-! ## Heap access -/

def heap_get (h : List (Nat × QueueData)) (p : Nat) : Option QueueData :=
  match h with
  | [] => none
  | x :: xs => if x.1 = p then some x.2 else heap_get xs p

def heap_set_type (h : List (Nat × QueueData)) (p : Nat) (t : EventType) :
    List (Nat × QueueData) :=
  match h with
  | [] => []
  | x :: xs =>
    (if x.1 = p then (x.1, { x.2 with type_ := t }) else x) :: heap_set_type xs p t

def heap_del (h : List (Nat × QueueData)) (p : Nat) : List (Nat × QueueData) :=
  match h with
  | [] => []
  | x :: xs => if x.1 = p then heap_del xs p else x :: heap_del xs p

/-- Dereference of the pointer recovered from a completion. -/
def tag_get (s : State) : Tag → Option QueueData
  | .listen_data => some s.listen_data
  | .heap p => heap_get s.heap p

/-- The assignment `data->type_ = t`. -/
def tag_set_type (s : State) (tag : Tag) (t : EventType) : State :=
  match tag with
  | .listen_data => { s with listen_data := { s.listen_data with type_ := t } }
  | .heap p => { s with heap := heap_set_type s.heap p t }

/-! ## Ring operations -/

/-- The call `io_uring_cqe_seen`: the head of the completion queue advances by one. -/
def io_uring_cqe_seen (s : State) (c : Cqe) : State :=
  { s with cq := s.cq.drop 1, log := s.log ++ [Effect.cqe_seen c] }

/-- The state after a request was written into a free slot of the ring. -/
def push_sqe (s : State) (e : Sqe) : State :=
  { s with sq := s.sq ++ [e], log := s.log ++ [Effect.prep e] }

/-- The sequence `io_uring_get_sqe`, `io_uring_prep_*`, `io_uring_sqe_set_data`.
The ring has `URING_ENTRIES` slots and only `io_uring_submit` frees them, so
with that many requests prepared `io_uring_get_sqe` returns the null pointer;
the source passes it on unchecked and `io_uring_prep_*` writes through it. -/
def prep (s : State) (e : Sqe) : Except Abort State :=
  if s.sq.length < URING_ENTRIES then .ok (push_sqe s e) else .error Abort.null_sqe

/-- The call `io_uring_submit`: everything prepared is handed to the kernel. -/
def io_uring_submit (s : State) : State :=
  { s with inflight := s.inflight ++ s.sq, sq := [] }

/-- Contents of the buffer at `base`; nothing is known about a buffer that was
never written. -/
def mem_get (mem : List (Nat × List Nat)) (base : Nat) : List Nat :=
  match mem with
  | [] => []
  | x :: xs => if x.1 = base then x.2 else mem_get xs base

/-- The kernel stores `data` at the start of the buffer a `readv` names. -/
def store (mem : List (Nat × List Nat)) (op : Op) (data : List Nat) : List (Nat × List Nat) :=
  match op with
  | .readv _ iov _ _ =>
    match iov.iov_base with
    | some base => (base, data ++ (mem_get mem base).drop data.length) :: mem
    | none => mem
  | _ => mem

/-- What the kernel can report for a request: a `readv` with a positive result
has stored that many bytes, no more than the buffer holds; nothing is stored
otherwise. -/
def valid_completion (op : Op) (res : Int) (data : List Nat) : Bool :=
  match op with
  | .readv _ iov _ _ =>
    if 0 < res then decide ((data.length : Int) = res ∧ data.length ≤ iov.iov_len)
    else decide (data = [])
  | _ => decide (data = [])

/-- The kernel finishes the request at position `i` with result `res`, having
stored `data` if the request is a `readv`. -/
def kernel_complete (s : State) (i : Nat) (res : Int) (data : List Nat) : Option State :=
  match s.inflight[i]? with
  | none => none
  | some e =>
    if valid_completion e.op res data then
      some { s with inflight := s.inflight.take i ++ s.inflight.drop (i + 1),
                    cq := s.cq ++ [{ user_data := e.user_data, res := res, data := data }],
                    mem := store s.mem e.op data }
    else none

/-- The bytes a `write` request sends: the first `nbytes` of its buffer. -/
def payload (mem : List (Nat × List Nat)) : Op → List Nat
  | .write _ (some base) nbytes _ => (mem_get mem base).take nbytes
  | _ => []

/-! ## The destructor and `delete` -/

/-- The expression `delete data`: the destructor shuts the socket down and
releases the buffer, then the record itself is released.  The stack record
cannot be released this way. -/
def delete_data (s : State) (tag : Tag) : Except Abort State :=
  match tag with
  | .listen_data => .error Abort.delete_of_stack_record
  | .heap p =>
    match heap_get s.heap p with
    | none => .error Abort.dangling_tag
    | some d =>
      .ok { s with heap := heap_del s.heap p,
                   log := s.log ++ [Effect.shutdown d.fd_, Effect.delete_buf d.buf_.iov_base] }

/-! ## The dispatch switch -/

/-- The accept loop of the `kListen` arm.  The list holds the values the
successive `accept4` calls return; the loop ends at the first `-1`. -/
def accept_loop (s : State) (listen_fd : Int) : List Int → Except Abort State
  | [] => .error Abort.accept_script_ended
  | client_sock :: rets =>
    if client_sock = -1 then
      .ok { s with log := s.log ++ [Effect.accept4 listen_fd client_sock] }
    else
      let a := s.next_ptr
      let pollin_data : QueueData :=
        { QueueData.new client_sock kPollin with
          buf_ := { iov_base := some (a + 1), iov_len := MAX_LENGTH } }
      let s1 : State :=
        { s with heap := s.heap ++ [(a, pollin_data)],
                 next_ptr := a + 2,
                 fds := s.fds ++ [client_sock],
                 log := s.log ++ [Effect.accept4 listen_fd client_sock] }
      match prep s1 { op := Op.poll_add client_sock POLL_IN, user_data := Tag.heap a } with
      | .error e => .error e
      | .ok s2 => accept_loop s2 listen_fd rets

/-- The state after one round of the accept loop that found a free slot. -/
def accept_one (s : State) (listen_fd : Int) (client_sock : Int) : State :=
  push_sqe
    { s with heap := s.heap ++ [(s.next_ptr,
               { QueueData.new client_sock kPollin with
                 buf_ := { iov_base := some (s.next_ptr + 1), iov_len := MAX_LENGTH } })],
             next_ptr := s.next_ptr + 2,
             fds := s.fds ++ [client_sock],
             log := s.log ++ [Effect.accept4 listen_fd client_sock] }
    { op := Op.poll_add client_sock POLL_IN, user_data := Tag.heap s.next_ptr }

/-- The conversion of the `int32_t` byte count to the `unsigned` parameter of
`io_uring_prep_write`. -/
def to_unsigned (bytes : Int) : Nat := (bytes % 4294967296).toNat

/-- The body of the `for` loop for the completion `c`. -/
def dispatch (s : State) (c : Cqe) (accept_rets : List Int) : Except Abort State :=
  match tag_get s c.user_data with
  | none => .error Abort.dangling_tag
  | some queue_data =>
    if queue_data.type_ = kListen then
      match accept_loop (io_uring_cqe_seen s c) queue_data.fd_ accept_rets with
      | .error e => .error e
      | .ok s2 =>
        prep s2 { op := Op.poll_add s2.server_sock POLL_IN, user_data := Tag.listen_data }
    else if queue_data.type_ = kPollin then
      match prep (io_uring_cqe_seen s c) { op := Op.readv queue_data.fd_ queue_data.buf_ 1 0,
                                           user_data := c.user_data } with
      | .error e => .error e
      | .ok s2 => .ok (tag_set_type s2 c.user_data kRead)
    else if queue_data.type_ = kRead then
      let bytes := c.res
      let s1 := io_uring_cqe_seen s c
      if bytes < 0 then
        delete_data s1 c.user_data
      else
        match prep s1 { op := Op.write queue_data.fd_ queue_data.buf_.iov_base
                                (to_unsigned bytes) 0,
                        user_data := c.user_data } with
        | .error e => .error e
        | .ok s2 => .ok (tag_set_type s2 c.user_data kWrite)
    else if queue_data.type_ = kWrite then
      match prep (io_uring_cqe_seen s c) { op := Op.poll_add queue_data.fd_ POLL_IN,
                                           user_data := c.user_data } with
      | .error e => .error e
      | .ok s2 => .ok (tag_set_type s2 c.user_data kPollin)
    else
      .error Abort.assert_false

/-- The `for` loop over the drained completions; each comes with the values
`accept4` returns while it is handled. -/
def for_cqes (s : State) : List (Cqe × List Int) → Except Abort State
  | [] => .ok s
  | x :: xs =>
    match dispatch s x.1 x.2 with
    | .error e => .error e
    | .ok s1 => for_cqes s1 xs

/-- The second half of the body of `while (true)`, once `io_uring_wait_cqe` has
returned `0`: `io_uring_peek_batch_cqe` copies out the first `BACKLOG` unseen
completions and the `for` loop handles them in order.  `accept_rets i` lists
what `accept4` returns while `cqes[i]` is handled. -/
def drain_batch (s : State) (accept_rets : Nat → List Int) : Except Abort State :=
  let cqes := s.cq.take BACKLOG
  for_cqes s (cqes.enum.map (fun x => (x.2, accept_rets x.1)))

/-- State at the head of `while (true)` after a successful start: the first
poll request for the listening socket is prepared with the stack record as tag. -/
def startup (server_sock : Int) : State :=
  { server_sock := server_sock,
    listen_data := QueueData.new server_sock kListen,
    heap := [],
    next_ptr := 0,
    fds := [server_sock],
    sq := [{ op := Op.poll_add server_sock POLL_IN, user_data := Tag.listen_data }],
    inflight := [],
    cq := [],
    log := [],
    mem := [] }

/-! ## Port selection -/

/-- The two exceptions `std::stoi` throws. -/
inductive StoiError where
  | invalid_argument
  | out_of_range
  deriving DecidableEq, Repr

/-- White space as `strtol` skips it: space and the controls `\t \n \v \f \r`. -/
def isspace (c : Char) : Bool :=
  c.toNat = 32 || (9 ≤ c.toNat && c.toNat ≤ 13)

/-- Value of a run of decimal digits, most significant first. -/
def digits_value (ds : List Char) : Nat :=
  ds.foldl (fun acc c => 10 * acc + (c.toNat - 48)) 0

/-- The call `std::stoi(str)` with base 10: leading white space is skipped, one
sign is accepted, the longest run of digits is converted and whatever follows
is ignored.  Without a digit the call throws `std::invalid_argument`, with a
value outside `int` it throws `std::out_of_range`. -/
def stoi (str : String) : Except StoiError Int :=
  let cs := str.toList.dropWhile isspace
  let negative : Bool := cs.head? = some '-'
  let body := if cs.head? = some '-' ∨ cs.head? = some '+' then cs.tail else cs
  let ds := body.takeWhile Char.isDigit
  if ds = [] then .error StoiError.invalid_argument
  else
    let v : Int := if negative then -(digits_value ds : Int) else (digits_value ds : Int)
    if v < -2147483648 ∨ 2147483647 < v then .error StoiError.out_of_range
    else .ok v

/-- The value of a run of decimal digits behind the sign `sign`. -/
def signed_value (sign ds : List Char) : Int :=
  if sign = ['-'] then -(digits_value ds : Int) else (digits_value ds : Int)

/-- The conversion `static_cast<uint16_t>`. -/
def to_uint16 (n : Int) : Nat := (n % 65536).toNat

/-- The value of `port` after the argument check; `argv` includes the program
name, so `argc` is its length. -/
def parse_port (argv : List String) : Except StoiError Nat :=
  if 2 ≤ argv.length then
    match stoi (argv.getD 1 "") with
    | .error e => .error e
    | .ok n => .ok (to_uint16 n)
  else .ok DEFAULT_PORT

/-- Calls `main` makes up to and including the creation of the socket. -/
inductive StartupCall where
  | printf_listen (port : Nat)
  | socket
  deriving DecidableEq, Repr

/-- The beginning of `main`: an exception thrown by `std::stoi` leaves `main`
before anything is printed and before `socket` is called. -/
def main_to_socket (argv : List String) : Except StoiError (List StartupCall) :=
  match parse_port argv with
  | .error e => .error e
  | .ok port => .ok [StartupCall.printf_listen port, StartupCall.socket]

/-- The text starts with a number as `std::stoi` reads one: white space, at
most one sign, then a decimal digit. -/
def StartsWithNumber (cs : List Char) : Prop :=
  ∃ ws sign d tail, cs = ws ++ sign ++ d :: tail ∧ (∀ c ∈ ws, isspace c = true) ∧
    (sign = [] ∨ sign = ['-'] ∨ sign = ['+']) ∧ d.isDigit = true

/-! ## Reachable states and the invariant -/

/-- Tags of every request that is prepared, in flight, or completed but not
yet marked seen. -/
def pending (s : State) : List Tag :=
  s.sq.map Sqe.user_data ++ s.inflight.map Sqe.user_data ++ s.cq.map Cqe.user_data

/-- The descriptors `accept4` hands out during one listener completion. -/
def accepted : List Int → List Int
  | [] => []
  | r :: rets => if r = -1 then [] else r :: accepted rets

/-- The kernel never returns a descriptor that is already open. -/
def FreshAccepts (s : State) (rets : List Int) : Prop :=
  (accepted rets).Nodup ∧ ∀ f ∈ accepted rets, f ∉ s.fds

/-- States the process passes through: after startup, after a submit, after
the kernel completes a request that is in flight, and after the loop body
handled the oldest unseen completion. -/
inductive Reachable : State → Prop where
  | startup (server_sock : Int) : Reachable (startup server_sock)
  | submit {s : State} : Reachable s → Reachable (io_uring_submit s)
  | complete {s s1 : State} {i : Nat} {res : Int} {data : List Nat} :
      Reachable s → kernel_complete s i res data = some s1 → Reachable s1
  | dispatch {s s1 : State} {c : Cqe} {rest : List Cqe} {rets : List Int} :
      Reachable s → s.cq = c :: rest → FreshAccepts s rets →
      dispatch s c rets = .ok s1 → Reachable s1

/-- Every list of `accept4` results in the batch respects the descriptor
table at the moment its completion is handled. -/
def FreshBatch (s : State) : List (Cqe × List Int) → Prop
  | [] => True
  | x :: xs => FreshAccepts s x.2 ∧ ∀ s1, dispatch s x.1 x.2 = .ok s1 → FreshBatch s1 xs

/-- Whether a logged call is `io_uring_cqe_seen`. -/
def Effect.is_seen : Effect → Bool
  | .cqe_seen _ => true
  | _ => false

/-- The request a logged call prepared, if it is one. -/
def Effect.prepared : Effect → Option Sqe
  | .prep e => some e
  | _ => none

/-- The number of requests the handling of a completion prepares at most: one
per accepted descriptor and one more for a listener completion, one for a
completion of a connection. -/
def requests_of (x : Cqe × List Int) : Nat :=
  if x.1.user_data = Tag.listen_data then (accepted x.2).length + 1 else 1

/-- The kernel finishes some of the requests in flight, one after the other. -/
inductive KernelRun : State → State → Prop where
  | refl (s : State) : KernelRun s s
  | step {s s1 s2 : State} {i : Nat} {res : Int} {data : List Nat} :
      KernelRun s s1 → kernel_complete s1 i res data = some s2 → KernelRun s s2

/-- States at the head of `while (true)`: the state after startup, and the
state after one pass through the body, in which `io_uring_submit` hands over
the prepared requests, the kernel finishes requests until `io_uring_wait_cqe`
finds a completion, and the batch is drained. -/
inductive LoopHead : State → Prop where
  | startup (server_sock : Int) : LoopHead (startup server_sock)
  | pass {s s1 s2 : State} {accept_rets : Nat → List Int} :
      LoopHead s → KernelRun (io_uring_submit s) s1 → s1.cq ≠ [] →
      FreshBatch s1 ((s1.cq.take BACKLOG).enum.map (fun x => (x.2, accept_rets x.1))) →
      drain_batch s1 accept_rets = .ok s2 → LoopHead s2

/-- Every descriptor `accept4` has returned is in the descriptor table. -/
def AcceptedOpen (s : State) : Prop :=
  ∀ listen_fd f, Effect.accept4 listen_fd f ∈ s.log → f ≠ -1 → f ∈ s.fds

/-- The operation a request carries fits the record its tag points to. -/
def SqeOk (s : State) (e : Sqe) : Prop :=
  match e.user_data with
  | .listen_data => e.op = Op.poll_add s.server_sock POLL_IN
  | .heap p =>
    ∃ d, heap_get s.heap p = some d ∧
      ((d.type_ = kPollin ∧ e.op = Op.poll_add d.fd_ POLL_IN) ∨
       (d.type_ = kRead ∧ e.op = Op.readv d.fd_ d.buf_ 1 0) ∨
       (d.type_ = kWrite ∧ ∃ n, e.op = Op.write d.fd_ d.buf_.iov_base n 0))

/-- The invariant of the loop; `n` is the number of pending requests tagged
with the stack record (one between two completions, none while the accept
loop runs). -/
structure InvN (n : Nat) (s : State) : Prop where
  listen_type : s.listen_data.type_ = kListen
  listen_fd : s.listen_data.fd_ = s.server_sock
  keys_lt : ∀ x ∈ s.heap, x.1 + 1 < s.next_ptr
  keys_nodup : (s.heap.map Prod.fst).Nodup
  rec_ok : ∀ x ∈ s.heap,
    (x.2.type_ = kPollin ∨ x.2.type_ = kRead ∨ x.2.type_ = kWrite) ∧
      x.2.buf_ = { iov_base := some (x.1 + 1), iov_len := MAX_LENGTH }
  cnt_listen : (pending s).count Tag.listen_data = n
  cnt_heap : ∀ p, (pending s).count (Tag.heap p) = (s.heap.map Prod.fst).count p
  sqe_ok : ∀ e ∈ s.sq ++ s.inflight, SqeOk s e
  fd_cnt : ∀ fd, s.log.count (Effect.shutdown fd) + (s.heap.map (fun x => x.2.fd_)).count fd
      + (if fd = s.server_sock then 1 else 0) = s.fds.count fd
  read_ok : ∀ c ∈ s.cq, ∀ p d, c.user_data = Tag.heap p → heap_get s.heap p = some d →
      d.type_ = kRead → 0 < c.res →
      (c.data.length : Int) = c.res ∧ c.data.length ≤ MAX_LENGTH ∧
        (mem_get s.mem (p + 1)).take c.data.length = c.data

/-- State after the loop body handled `c` for the heap record at `p` by
preparing the request `op` and storing `t` in the record. -/
def cycle_state (s : State) (c : Cqe) (p : Nat) (t : EventType) (op : Op) : State :=
  { s with cq := s.cq.drop 1,
           sq := s.sq ++ [{ op := op, user_data := Tag.heap p }],
           heap := heap_set_type s.heap p t,
           log := s.log ++ [Effect.cqe_seen c, Effect.prep { op := op, user_data := Tag.heap p }] }

/-- State after the loop body handled `c` by deleting the heap record `d` at `p`. -/
def closed_state (s : State) (c : Cqe) (p : Nat) (d : QueueData) : State :=
  { s with cq := s.cq.drop 1,
           heap := heap_del s.heap p,
           log := s.log ++ [Effect.cqe_seen c, Effect.shutdown d.fd_,
                            Effect.delete_buf d.buf_.iov_base] }

/-- The records the accept loop creates for the descriptors `fs`, the first
one at address `a`; every record is followed by its buffer. -/
def new_records (a : Nat) : List Int → List (Nat × QueueData)
  | [] => []
  | f :: fs =>
    (a, { fd_ := f, type_ := kPollin,
          buf_ := { iov_base := some (a + 1), iov_len := MAX_LENGTH } }) :: new_records (a + 2) fs

/-- The poll requests the accept loop prepares for the descriptors `fs`. -/
def new_polls (a : Nat) : List Int → List Sqe
  | [] => []
  | f :: fs => { op := Op.poll_add f POLL_IN, user_data := Tag.heap a } :: new_polls (a + 2) fs

/-- The calls the accept loop makes while `accept4` returns the descriptors `fs`. -/
def accept_log (listen_fd : Int) (a : Nat) : List Int → List Effect
  | [] => []
  | f :: fs =>
    Effect.accept4 listen_fd f ::
      Effect.prep { op := Op.poll_add f POLL_IN, user_data := Tag.heap a } ::
        accept_log listen_fd (a + 2) fs

/-! ## A sample run

One client connects on descriptor `5` to a server listening on descriptor `3`;
the states below are the ones the loop passes through. -/

/-- The state inside `.ok`, or `d` after an abort. -/
def ok_or (d : State) : Except Abort State → State
  | .ok s => s
  | .error _ => d

/-- The state inside `some`, or `d`. -/
def some_or (d : State) : Option State → State
  | some s => s
  | none => d

/-- The first poll on the listening socket has completed. -/
def ex_listen_ready : State :=
  some_or (startup 3) (kernel_complete (io_uring_submit (startup 3)) 0 1 [])

/-- The loop body has accepted descriptor `5`. -/
def ex_accepted : State :=
  ok_or ex_listen_ready
    (dispatch ex_listen_ready { user_data := Tag.listen_data, res := 1 } [5, -1])

/-- The poll on descriptor `5` has completed. -/
def ex_poll_ready : State :=
  some_or ex_accepted (kernel_complete (io_uring_submit ex_accepted) 0 1 [])

/-- The loop body has prepared the read on descriptor `5`. -/
def ex_reading : State :=
  ok_or ex_poll_ready (dispatch ex_poll_ready { user_data := Tag.heap 0, res := 1 } [])

/-- The read on descriptor `5` has completed with the result `r`, which is not
positive, so that nothing was stored. -/
def ex_read_done (r : Int) : State :=
  some_or ex_reading (kernel_complete (io_uring_submit ex_reading) 1 r [])

/-- The four bytes of `ping`. -/
def ex_ping : List Nat := [112, 105, 110, 103]

/-- The read on descriptor `5` has completed with the four bytes of `ping`. -/
def ex_read_ping : State :=
  some_or ex_reading (kernel_complete (io_uring_submit ex_reading) 1 4 ex_ping)

/-- The loop body has handled a read that failed with `-104`. -/
def ex_closed : State :=
  ok_or (ex_read_done (-104))
    (dispatch (ex_read_done (-104)) { user_data := Tag.heap 0, res := -104 } [])

/-- The loop body has prepared the write of the four bytes read. -/
def ex_writing : State :=
  ok_or ex_read_ping
    (dispatch ex_read_ping { user_data := Tag.heap 0, res := 4, data := ex_ping } [])

/-- The write on descriptor `5` has completed with result `r`. -/
def ex_write_done (r : Int) : State :=
  some_or ex_writing (kernel_complete (io_uring_submit ex_writing) 1 r [])

/-! ## A burst of connections

While the listener completion is handled, `accept4` returns the 63
descriptors `6 .. 68`; with the poll for the listening socket that makes 64
prepared requests, and the completion of descriptor `5` is still in the batch. -/

/-- The descriptors `6 .. 68`. -/
def ex_burst : List Int := (List.range 63).map (fun (i : Nat) => (6 : Int) + Int.ofNat i)

/-- State after the kernel finished first the request at `i`, then the one at `j`. -/
def both_done (s : State) (i : Nat) (r1 : Int) (j : Nat) (r2 : Int) (data : List Nat) : State :=
  some_or s ((kernel_complete s i r1 []).bind (fun s1 => kernel_complete s1 j r2 data))

/-- State after the listener completion at the head of the queue was handled
while the burst arrived. -/
def after_burst (s : State) : State :=
  ok_or s (dispatch s { user_data := Tag.listen_data, res := 1 } (ex_burst ++ [-1]))

/-- The polls on the listening socket and on descriptor `5` have both completed. -/
def ex_both_poll : State := both_done (io_uring_submit ex_accepted) 1 1 0 1 []

/-- The ring is full and the poll completion of descriptor `5` comes next. -/
def ex_full_poll : State := after_burst ex_both_poll

/-- The poll on the listening socket and the read on descriptor `5` have both
completed, the read with the four bytes of `ping`. -/
def ex_both_read : State := both_done (io_uring_submit ex_reading) 0 1 0 4 ex_ping

/-- The ring is full and the read completion of descriptor `5` comes next. -/
def ex_full_read : State := after_burst ex_both_read

/-- The poll on the listening socket and the read on descriptor `5` have both
completed, the read at end of stream. -/
def ex_both_eof : State := both_done (io_uring_submit ex_reading) 0 1 0 0 []

/-- The ring is full and the end-of-stream completion of descriptor `5` comes next. -/
def ex_full_eof : State := after_burst ex_both_eof

/-- The poll on the listening socket and the write on descriptor `5` have both
completed. -/
def ex_both_write : State := both_done (io_uring_submit ex_writing) 0 1 0 4 []

/-- The ring is full and the write completion of descriptor `5` comes next. -/
def ex_full_write : State := after_burst ex_both_write

/-! # Proofs -/

/-! ## Heap lemmas -/

theorem heap_get_mem {h : List (Nat × QueueData)} {p : Nat} {d : QueueData}
    (hd : heap_get h p = some d) : (p, d) ∈ h := by
  induction h with
  | nil => simp [heap_get] at hd
  | cons x xs ih =>
    by_cases hx : x.1 = p
    · simp only [heap_get, hx, if_true, Option.some.injEq] at hd
      have : x = (p, d) := Prod.ext hx hd
      simp [this]
    · simp only [heap_get, hx, if_false] at hd
      exact List.mem_cons_of_mem _ (ih hd)

theorem heap_get_none_iff (h : List (Nat × QueueData)) (p : Nat) :
    heap_get h p = none ↔ p ∉ h.map Prod.fst := by
  induction h with
  | nil => simp [heap_get]
  | cons x xs ih =>
    by_cases hx : x.1 = p
    · simp [heap_get, hx]
    · have hx2 : ¬ p = x.1 := fun e => hx e.symm
      simp only [heap_get, hx, if_false, ih, List.map_cons, List.mem_cons, hx2, false_or]

theorem heap_get_of_mem {h : List (Nat × QueueData)} {x : Nat × QueueData}
    (hn : (h.map Prod.fst).Nodup) (hx : x ∈ h) : heap_get h x.1 = some x.2 := by
  induction h with
  | nil => simp at hx
  | cons y ys ih =>
    simp only [List.map_cons, List.nodup_cons] at hn
    rcases List.mem_cons.mp hx with e | hm
    · subst e
      simp [heap_get]
    · have hne : y.1 ≠ x.1 := by
        intro e
        apply hn.1
        rw [e]
        exact List.mem_map_of_mem Prod.fst hm
      simp only [heap_get, hne, if_false]
      exact ih hn.2 hm

theorem keys_set_type (h : List (Nat × QueueData)) (p : Nat) (t : EventType) :
    (heap_set_type h p t).map Prod.fst = h.map Prod.fst := by
  induction h with
  | nil => rfl
  | cons x xs ih =>
    by_cases hx : x.1 = p <;> simp [heap_set_type, hx, ih]

theorem fds_set_type (h : List (Nat × QueueData)) (p : Nat) (t : EventType) :
    (heap_set_type h p t).map (fun x => x.2.fd_) = h.map (fun x => x.2.fd_) := by
  induction h with
  | nil => rfl
  | cons x xs ih =>
    by_cases hx : x.1 = p <;> simp [heap_set_type, hx, ih]

theorem heap_get_set_type_self {h : List (Nat × QueueData)} {p : Nat} (t : EventType)
    {d : QueueData} (hd : heap_get h p = some d) :
    heap_get (heap_set_type h p t) p = some { d with type_ := t } := by
  induction h with
  | nil => simp [heap_get] at hd
  | cons x xs ih =>
    by_cases hx : x.1 = p
    · simp [heap_get, heap_set_type, hx] at hd ⊢
      simp [hd]
    · simp only [heap_get, hx, if_false] at hd
      simp [heap_get, heap_set_type, hx, ih hd]

theorem heap_get_set_type_ne (h : List (Nat × QueueData)) {p q : Nat} (t : EventType)
    (hq : q ≠ p) : heap_get (heap_set_type h p t) q = heap_get h q := by
  induction h with
  | nil => rfl
  | cons x xs ih =>
    by_cases hx : x.1 = p
    · have hxq : ¬ p = q := fun e => hq e.symm
      simp [heap_get, heap_set_type, hx, hxq, ih]
    · simp [heap_get, heap_set_type, hx, ih]

theorem mem_set_type {h : List (Nat × QueueData)} {p : Nat} {t : EventType}
    {x : Nat × QueueData} (hx : x ∈ heap_set_type h p t) :
    ∃ y ∈ h, x.1 = y.1 ∧ x.2.fd_ = y.2.fd_ ∧ x.2.buf_ = y.2.buf_ ∧
      (x.2.type_ = y.2.type_ ∨ x.2.type_ = t) := by
  induction h with
  | nil => simp [heap_set_type] at hx
  | cons y ys ih =>
    simp only [heap_set_type, List.mem_cons] at hx
    rcases hx with e | hm
    · refine ⟨y, List.mem_cons_self _ _, ?_⟩
      by_cases hp : y.1 = p
      · simp only [hp, if_true] at e
        subst e
        simp [hp]
      · simp only [hp, if_false] at e
        subst e
        simp
    · obtain ⟨z, hz, hrest⟩ := ih hm
      exact ⟨z, List.mem_cons_of_mem _ hz, hrest⟩

theorem heap_del_sublist (h : List (Nat × QueueData)) (p : Nat) :
    List.Sublist (heap_del h p) h := by
  induction h with
  | nil => simp [heap_del]
  | cons x xs ih =>
    by_cases hx : x.1 = p
    · simp only [heap_del, hx, if_true]
      exact List.Sublist.cons _ ih
    · simp only [heap_del, hx, if_false]
      exact List.Sublist.cons₂ _ ih

theorem mem_heap_del {h : List (Nat × QueueData)} {p : Nat} {x : Nat × QueueData}
    (hx : x ∈ heap_del h p) : x ∈ h ∧ x.1 ≠ p := by
  induction h with
  | nil => simp [heap_del] at hx
  | cons y ys ih =>
    by_cases hy : y.1 = p
    · simp only [heap_del, hy, if_true] at hx
      exact ⟨List.mem_cons_of_mem _ (ih hx).1, (ih hx).2⟩
    · simp only [heap_del, hy, if_false, List.mem_cons] at hx
      rcases hx with e | hm
      · subst e
        exact ⟨List.mem_cons_self _ _, hy⟩
      · exact ⟨List.mem_cons_of_mem _ (ih hm).1, (ih hm).2⟩

theorem keys_heap_del (h : List (Nat × QueueData)) (p q : Nat) :
    ((heap_del h p).map Prod.fst).count q = if q = p then 0 else (h.map Prod.fst).count q := by
  induction h with
  | nil => simp [heap_del]
  | cons x xs ih =>
    by_cases hx : x.1 = p
    · simp only [heap_del, hx, if_true, ih, List.map_cons]
      by_cases hq : q = p
      · simp [hq]
      · have : ¬ p = q := fun e => hq e.symm
        simp [hq, List.count_cons, this]
    · simp only [heap_del, hx, if_false, List.map_cons, List.count_cons, ih]
      by_cases hq : q = p
      · have : ¬ x.1 = q := fun e => hx (e.trans hq)
        simp [hq, hx]
      · simp [hq]

theorem keys_nodup_heap_del {h : List (Nat × QueueData)} (p : Nat)
    (hn : (h.map Prod.fst).Nodup) : ((heap_del h p).map Prod.fst).Nodup :=
  List.Nodup.sublist (List.Sublist.map _ (heap_del_sublist h p)) hn

theorem heap_get_del_ne (h : List (Nat × QueueData)) {p q : Nat} (hq : q ≠ p) :
    heap_get (heap_del h p) q = heap_get h q := by
  induction h with
  | nil => rfl
  | cons x xs ih =>
    by_cases hx : x.1 = p
    · have hxq : ¬ p = q := fun e => hq e.symm
      simp [heap_get, heap_del, hx, hxq, ih]
    · simp [heap_get, heap_del, hx, ih]

theorem heap_get_del_self (h : List (Nat × QueueData)) (p : Nat) :
    heap_get (heap_del h p) p = none := by
  rw [heap_get_none_iff]
  intro hm
  obtain ⟨x, hx, e⟩ := List.mem_map.mp hm
  exact (mem_heap_del hx).2 e

theorem heap_del_of_not_mem {h : List (Nat × QueueData)} {p : Nat}
    (hp : p ∉ h.map Prod.fst) : heap_del h p = h := by
  induction h with
  | nil => rfl
  | cons x xs ih =>
    simp only [List.map_cons, List.mem_cons, not_or] at hp
    have hx : ¬ x.1 = p := fun e => hp.1 e.symm
    simp [heap_del, hx, ih hp.2]

theorem fds_heap_del {h : List (Nat × QueueData)} {p : Nat} {d : QueueData}
    (hn : (h.map Prod.fst).Nodup) (hd : heap_get h p = some d) (fd : Int) :
    ((heap_del h p).map (fun x => x.2.fd_)).count fd + (if fd = d.fd_ then 1 else 0)
      = (h.map (fun x => x.2.fd_)).count fd := by
  induction h with
  | nil => simp [heap_get] at hd
  | cons x xs ih =>
    simp only [List.map_cons, List.nodup_cons] at hn
    by_cases hx : x.1 = p
    · simp only [heap_get, hx, if_true, Option.some.injEq] at hd
      have hnot : p ∉ xs.map Prod.fst := hx ▸ hn.1
      have hdel : heap_del (x :: xs) p = xs := by
        simp [heap_del, hx, heap_del_of_not_mem hnot]
      rw [hdel]
      simp only [List.map_cons, List.count_cons, hd, beq_iff_eq]
      by_cases hf : fd = d.fd_
      · simp [hf]
      · have : ¬ d.fd_ = fd := fun e => hf e.symm
        simp [hf, this]
    · simp only [heap_get, hx, if_false] at hd
      have e1 : heap_del (x :: xs) p = x :: heap_del xs p := by
        simp [heap_del, hx]
      rw [e1]
      simp only [List.map_cons, List.count_cons]
      have := ih hn.2 hd
      omega

theorem heap_get_append (h : List (Nat × QueueData)) (a q : Nat) (d : QueueData) :
    heap_get (h ++ [(a, d)]) q =
      match heap_get h q with
      | some x => some x
      | none => if a = q then some d else none := by
  induction h with
  | nil => simp [heap_get]
  | cons x xs ih =>
    by_cases hx : x.1 = q
    · simp [heap_get, hx]
    · simp [heap_get, hx, ih]

theorem mem_get_cons_self (mem : List (Nat × List Nat)) (b : Nat) (v : List Nat) :
    mem_get ((b, v) :: mem) b = v := by
  simp [mem_get]

theorem mem_get_cons_ne (mem : List (Nat × List Nat)) {b q : Nat} (v : List Nat) (h : q ≠ b) :
    mem_get ((b, v) :: mem) q = mem_get mem q := by
  have h2 : ¬ b = q := fun e => h e.symm
  simp [mem_get, h2]

/-! ## The invariant holds in every reachable state -/

theorem split_at_get {α : Type} (l : List α) (i : Nat) (e : α) (h : l[i]? = some e) :
    l = l.take i ++ e :: l.drop (i + 1) := by
  induction l generalizing i with
  | nil => simp at h
  | cons x xs ih =>
    cases i with
    | zero =>
      simp at h
      simp [h]
    | succ j =>
      simp at h
      simpa using ih j h

theorem SqeOk_congr {s1 s2 : State} {e : Sqe} (hh : s1.heap = s2.heap)
    (hs : s1.server_sock = s2.server_sock) (h : SqeOk s1 e) : SqeOk s2 e := by
  unfold SqeOk at h ⊢
  rw [← hh, ← hs]
  exact h

theorem InvN_startup (server_sock : Int) : InvN 1 (startup server_sock) := by
  refine ⟨rfl, rfl, ?_, ?_, ?_, ?_, ?_, ?_, ?_, ?_⟩
  · intro x hx
    simp [startup] at hx
  · simp [startup]
  · intro x hx
    simp [startup] at hx
  · simp [startup, pending]
  · intro p
    simp [startup, pending]
  · intro e he
    simp only [startup, List.append_nil, List.mem_singleton] at he
    subst he
    simp [SqeOk, startup]
  · intro fd
    by_cases h : fd = server_sock
    · simp [startup, h]
    · have h2 : ¬ server_sock = fd := fun e => h e.symm
      simp [startup, h, List.count_cons, h2]
  · intro c hc
    exact absurd hc (List.not_mem_nil _)

theorem InvN_submit {n : Nat} {s : State} (h : InvN n s) : InvN n (io_uring_submit s) := by
  refine ⟨h.listen_type, h.listen_fd, h.keys_lt, h.keys_nodup, h.rec_ok, ?_, ?_, ?_, h.fd_cnt,
    h.read_ok⟩
  · have := h.cnt_listen
    simp only [pending, io_uring_submit, List.map_append, List.count_append, List.map_nil,
      List.count_nil] at this ⊢
    omega
  · intro p
    have := h.cnt_heap p
    simp only [pending, io_uring_submit, List.map_append, List.count_append, List.map_nil,
      List.count_nil] at this ⊢
    omega
  · intro e he
    have he2 : e ∈ s.sq ++ s.inflight := by
      simp only [io_uring_submit, List.nil_append, List.mem_append] at he
      exact List.mem_append.mpr he.symm
    exact SqeOk_congr rfl rfl (h.sqe_ok e he2)

theorem queued_readv_facts {n : Nat} {s : State} (h : InvN n s) {e : Sqe}
    (he : e ∈ s.sq ++ s.inflight) {fd : Int} {iov : IoVec} {nr off : Nat}
    (hop : e.op = Op.readv fd iov nr off) :
    ∃ q d, e.user_data = Tag.heap q ∧ heap_get s.heap q = some d ∧ d.type_ = kRead ∧
      iov = { iov_base := some (q + 1), iov_len := MAX_LENGTH } := by
  have hok := h.sqe_ok e he
  unfold SqeOk at hok
  cases hu : e.user_data with
  | listen_data =>
    simp only [hu] at hok
    rw [hop] at hok
    exact Op.noConfusion hok
  | heap q =>
    simp only [hu] at hok
    obtain ⟨d, hd, hk⟩ := hok
    have hbuf := (h.rec_ok (q, d) (heap_get_mem hd)).2
    rcases hk with ⟨_, e1⟩ | ⟨ht, e1⟩ | ⟨_, m, e1⟩
    · rw [hop] at e1
      exact Op.noConfusion e1
    · rw [hop] at e1
      simp only [Op.readv.injEq] at e1
      exact ⟨q, d, rfl, hd, ht, by rw [e1.2.1, hbuf]⟩
    · rw [hop] at e1
      exact Op.noConfusion e1

theorem InvN_complete {n : Nat} {s s1 : State} {i : Nat} {res : Int} {data : List Nat}
    (h : InvN n s) (hc : kernel_complete s i res data = some s1) : InvN n s1 := by
  unfold kernel_complete at hc
  cases hg : s.inflight[i]? with
  | none => simp [hg] at hc
  | some e =>
    simp only [hg] at hc
    by_cases hv : valid_completion e.op res data = true
    swap
    · simp [hv] at hc
    simp only [hv, if_true, Option.some.injEq] at hc
    subst hc
    have hsplit := split_at_get s.inflight i e hg
    have hein : e ∈ s.sq ++ s.inflight := by
      rw [hsplit]
      simp
    have hcount : ∀ t : Tag,
        (pending { s with inflight := s.inflight.take i ++ s.inflight.drop (i + 1),
                          cq := s.cq ++ [{ user_data := e.user_data, res := res, data := data }],
                          mem := store s.mem e.op data }).count t
          = (pending s).count t := by
      intro t
      have e2 := congrArg (fun l => (l.map Sqe.user_data).count t) hsplit
      simp only [List.map_append, List.count_append, List.map_cons, List.count_cons] at e2
      simp only [pending, List.map_append, List.count_append, List.map_cons, List.count_cons,
        List.map_nil, List.count_nil]
      omega
    refine ⟨h.listen_type, h.listen_fd, h.keys_lt, h.keys_nodup, h.rec_ok, ?_, ?_, ?_, h.fd_cnt,
      ?_⟩
    · rw [hcount]
      exact h.cnt_listen
    · intro p
      rw [hcount]
      exact h.cnt_heap p
    · intro x hx
      have hx2 : x ∈ s.sq ++ s.inflight := by
        simp only [List.mem_append] at hx ⊢
        rcases hx with hx | hx | hx
        · exact Or.inl hx
        · exact Or.inr (List.mem_of_mem_take hx)
        · exact Or.inr (List.mem_of_mem_drop hx)
      exact SqeOk_congr rfl rfl (h.sqe_ok x hx2)
    · intro c hcm p d htag hget hty hpos
      simp only [List.mem_append, List.mem_singleton] at hcm
      rcases hcm with hcm | hcm
      · obtain ⟨h1, h2, h3⟩ := h.read_ok c hcm p d htag hget hty hpos
        refine ⟨h1, h2, ?_⟩
        have hmem : mem_get (store s.mem e.op data) (p + 1) = mem_get s.mem (p + 1) := by
          cases hop : e.op with
          | poll_add fd m => rfl
          | write fd b nb off => rfl
          | readv fd iov nr off =>
            obtain ⟨q, dq, hq, _, _, hiov⟩ := queued_readv_facts h hein hop
            have hne : p ≠ q := by
              intro hpq
              have hcnt := h.cnt_heap p
              have hle := List.nodup_iff_count_le_one.mp h.keys_nodup p
              have h1 : 0 < ((s.sq ++ s.inflight).map Sqe.user_data).count (Tag.heap p) := by
                apply List.count_pos_iff.mpr
                rw [hpq, ← hq]
                exact List.mem_map_of_mem Sqe.user_data hein
              have h2 : 0 < (s.cq.map Cqe.user_data).count (Tag.heap p) := by
                apply List.count_pos_iff.mpr
                rw [← htag]
                exact List.mem_map_of_mem Cqe.user_data hcm
              simp only [pending, List.map_append, List.count_append] at hcnt h1
              omega
            simp only [store, hiov]
            exact mem_get_cons_ne _ _ (by omega)
        rw [hmem]
        exact h3
      · subst hcm
        have htag2 : e.user_data = Tag.heap p := htag
        have hres : 0 < res := hpos
        have hok := h.sqe_ok e hein
        unfold SqeOk at hok
        simp only [htag2] at hok
        obtain ⟨d2, hd2, hk⟩ := hok
        have hdd : d2 = d := Option.some.inj (hd2.symm.trans hget)
        subst hdd
        have hbuf := (h.rec_ok (p, d2) (heap_get_mem hd2)).2
        have hop : e.op = Op.readv d2.fd_ d2.buf_ 1 0 := by
          rcases hk with ⟨ht, _⟩ | ⟨_, e1⟩ | ⟨ht, _⟩
          · rw [hty] at ht
            exact absurd ht (by decide)
          · exact e1
          · rw [hty] at ht
            exact absurd ht (by decide)
        rw [hop] at hv
        simp only [valid_completion, hres, if_true, decide_eq_true_eq] at hv
        refine ⟨hv.1, ?_, ?_⟩
        · have := hv.2
          rw [hbuf] at this
          exact this
        · show (mem_get (store s.mem e.op data) (p + 1)).take data.length = data
          rw [hop, hbuf]
          simp only [store]
          rw [mem_get_cons_self]
          simp

/-! ## What each arm of the switch computes -/

theorem ok_of_room {c : Prop} [Decidable c] {a s1 : State} {e : Abort}
    (h : (if c then Except.ok a else Except.error e) = Except.ok s1) : c ∧ a = s1 := by
  by_cases hc : c
  · simp only [hc, if_true, Except.ok.injEq] at h
    exact ⟨hc, h⟩
  · simp only [hc, if_false] at h
    exact Except.noConfusion h

theorem error_of_room {c : Prop} [Decidable c] {a : State} {e e1 : Abort}
    (h : (if c then Except.ok a else Except.error e) = Except.error e1) : ¬ c ∧ e = e1 := by
  by_cases hc : c
  · simp only [hc, if_true] at h
    exact Except.noConfusion h
  · simp only [hc, if_false, Except.error.injEq] at h
    exact ⟨hc, h⟩

theorem dispatch_pollin (s : State) (c : Cqe) (rets : List Int) (p : Nat) (d : QueueData)
    (htag : c.user_data = Tag.heap p) (hget : heap_get s.heap p = some d)
    (hty : d.type_ = kPollin) :
    dispatch s c rets =
      if s.sq.length < URING_ENTRIES then
        .ok (cycle_state s c p kRead (Op.readv d.fd_ d.buf_ 1 0))
      else .error Abort.null_sqe := by
  by_cases hroom : s.sq.length < URING_ENTRIES <;>
  simp [dispatch, tag_get, htag, hget, hty, kListen, kPollin, prep, push_sqe, io_uring_cqe_seen,
    tag_set_type, cycle_state, hroom]

theorem dispatch_read_neg (s : State) (c : Cqe) (rets : List Int) (p : Nat) (d : QueueData)
    (htag : c.user_data = Tag.heap p) (hget : heap_get s.heap p = some d)
    (hty : d.type_ = kRead) (hres : c.res < 0) :
    dispatch s c rets = .ok (closed_state s c p d) := by
  simp [dispatch, tag_get, htag, hget, hty, kListen, kPollin, kRead, hres, delete_data,
    io_uring_cqe_seen, closed_state]

theorem dispatch_read_nonneg (s : State) (c : Cqe) (rets : List Int) (p : Nat) (d : QueueData)
    (htag : c.user_data = Tag.heap p) (hget : heap_get s.heap p = some d)
    (hty : d.type_ = kRead) (hres : 0 ≤ c.res) :
    dispatch s c rets =
      if s.sq.length < URING_ENTRIES then
        .ok (cycle_state s c p kWrite (Op.write d.fd_ d.buf_.iov_base (to_unsigned c.res) 0))
      else .error Abort.null_sqe := by
  by_cases hroom : s.sq.length < URING_ENTRIES <;>
  simp [dispatch, tag_get, htag, hget, hty, kListen, kPollin, kRead, not_lt.mpr hres, prep,
    push_sqe, io_uring_cqe_seen, tag_set_type, cycle_state, hroom]

theorem dispatch_write (s : State) (c : Cqe) (rets : List Int) (p : Nat) (d : QueueData)
    (htag : c.user_data = Tag.heap p) (hget : heap_get s.heap p = some d)
    (hty : d.type_ = kWrite) :
    dispatch s c rets =
      if s.sq.length < URING_ENTRIES then
        .ok (cycle_state s c p kPollin (Op.poll_add d.fd_ POLL_IN))
      else .error Abort.null_sqe := by
  by_cases hroom : s.sq.length < URING_ENTRIES <;>
  simp [dispatch, tag_get, htag, hget, hty, kListen, kPollin, kRead, kWrite, prep, push_sqe,
    io_uring_cqe_seen, tag_set_type, cycle_state, hroom]

theorem to_unsigned_of_int32 {n : Int} (h0 : 0 ≤ n) (h32 : n ≤ 2147483647) :
    to_unsigned n = n.toNat := by
  unfold to_unsigned
  rw [Int.emod_eq_of_lt h0 (by omega)]

/-! ## The connection arms keep the invariant -/

theorem head_tag_facts {s : State} (h : InvN 1 s) {c : Cqe} {rest : List Cqe}
    (hcq : s.cq = c :: rest) {p : Nat} (htag : c.user_data = Tag.heap p) :
    (∃ d, heap_get s.heap p = some d) ∧
    (s.sq.map Sqe.user_data).count (Tag.heap p) = 0 ∧
    (s.inflight.map Sqe.user_data).count (Tag.heap p) = 0 ∧
    (rest.map Cqe.user_data).count (Tag.heap p) = 0 := by
  have hc := h.cnt_heap p
  have hle : (s.heap.map Prod.fst).count p ≤ 1 := List.nodup_iff_count_le_one.mp h.keys_nodup p
  simp only [pending, hcq, List.map_cons, htag, List.count_append, List.count_cons_self] at hc
  have hpos : 0 < (s.heap.map Prod.fst).count p := by omega
  refine ⟨?_, by omega, by omega, by omega⟩
  have hmem : p ∈ s.heap.map Prod.fst := List.count_pos_iff.mp hpos
  cases hg : heap_get s.heap p with
  | none => exact absurd hmem ((heap_get_none_iff _ _).mp hg)
  | some d => exact ⟨d, rfl⟩

theorem InvN_cycle {s : State} (h : InvN 1 s) {c : Cqe} {rest : List Cqe}
    (hcq : s.cq = c :: rest) {p : Nat} (htag : c.user_data = Tag.heap p) {d : QueueData}
    (hget : heap_get s.heap p = some d) (t : EventType) (op : Op)
    (hop : (t = kPollin ∧ op = Op.poll_add d.fd_ POLL_IN) ∨
           (t = kRead ∧ op = Op.readv d.fd_ d.buf_ 1 0) ∨
           (t = kWrite ∧ ∃ n, op = Op.write d.fd_ d.buf_.iov_base n 0)) :
    InvN 1 (cycle_state s c p t op) := by
  obtain ⟨_, hsq0, hin0, hrest0⟩ := head_tag_facts h hcq htag
  have ht : t = kPollin ∨ t = kRead ∨ t = kWrite := by
    rcases hop with ⟨h1, _⟩ | ⟨h1, _⟩ | ⟨h1, _⟩
    · exact Or.inl h1
    · exact Or.inr (Or.inl h1)
    · exact Or.inr (Or.inr h1)
  refine ⟨h.listen_type, h.listen_fd, ?_, ?_, ?_, ?_, ?_, ?_, ?_, ?_⟩
  · intro x hx
    obtain ⟨y, hy, e1, _⟩ := mem_set_type hx
    rw [e1]
    exact h.keys_lt y hy
  · show ((heap_set_type s.heap p t).map Prod.fst).Nodup
    rw [keys_set_type]
    exact h.keys_nodup
  · intro x hx
    obtain ⟨y, hy, e1, _, e3, e4⟩ := mem_set_type hx
    have hy2 := h.rec_ok y hy
    refine ⟨?_, ?_⟩
    · rcases e4 with e4 | e4
      · rw [e4]
        exact hy2.1
      · rw [e4]
        exact ht
    · rw [e3, e1]
      exact hy2.2
  · have := h.cnt_listen
    simp only [pending, hcq, cycle_state, List.map_append, List.count_append, List.map_cons,
      List.map_nil, htag, List.drop_one, List.tail_cons] at this ⊢
    simp only [List.count_cons, List.count_nil] at this ⊢
    simpa using this
  · intro q
    have := h.cnt_heap q
    simp only [pending, hcq, cycle_state, List.map_append, List.count_append, List.map_cons,
      List.map_nil, htag, List.drop_one, List.tail_cons, keys_set_type] at this ⊢
    simp only [List.count_cons, List.count_nil] at this ⊢
    omega
  · intro x hx
    have hx2 : x = { op := op, user_data := Tag.heap p } ∨ x ∈ s.sq ++ s.inflight := by
      simp only [cycle_state, List.mem_append, List.mem_singleton] at hx ⊢
      tauto
    rcases hx2 with e | hm
    · subst e
      have hnew := heap_get_set_type_self t hget
      simp only [SqeOk, cycle_state]
      refine ⟨_, hnew, ?_⟩
      simpa using hop
    · have hold := h.sqe_ok x hm
      have hne : x.user_data ≠ Tag.heap p := by
        intro e
        have hmem : Tag.heap p ∈ (s.sq ++ s.inflight).map Sqe.user_data :=
          e ▸ List.mem_map_of_mem Sqe.user_data hm
        have hpos := List.count_pos_iff.mpr hmem
        simp only [List.map_append, List.count_append] at hpos
        omega
      unfold SqeOk at hold ⊢
      cases hu : x.user_data with
      | listen_data =>
        simp only [hu] at hold
        simpa [cycle_state] using hold
      | heap q =>
        simp only [hu] at hold
        have hq : q ≠ p := fun e => hne (by rw [hu, e])
        simp only [cycle_state]
        rw [heap_get_set_type_ne _ _ hq]
        exact hold
  · intro fd
    have := h.fd_cnt fd
    simp only [cycle_state, List.count_append, fds_set_type] at this ⊢
    simpa [List.count_cons] using this
  · intro c2 hc2 q d2 htag2 hget2 hty2 hpos2
    have hc3 : c2 ∈ rest := by simpa [cycle_state, hcq] using hc2
    have hq : q ≠ p := by
      intro e
      have hmem : Tag.heap p ∈ rest.map Cqe.user_data := by
        rw [← e, ← htag2]
        exact List.mem_map_of_mem Cqe.user_data hc3
      have := List.count_pos_iff.mpr hmem
      omega
    have hget3 : heap_get s.heap q = some d2 := by
      rw [← heap_get_set_type_ne s.heap t hq]
      exact hget2
    exact h.read_ok c2 (by rw [hcq]; exact List.mem_cons_of_mem _ hc3) q d2 htag2 hget3 hty2 hpos2

theorem InvN_closed {s : State} (h : InvN 1 s) {c : Cqe} {rest : List Cqe}
    (hcq : s.cq = c :: rest) {p : Nat} (htag : c.user_data = Tag.heap p) {d : QueueData}
    (hget : heap_get s.heap p = some d) : InvN 1 (closed_state s c p d) := by
  obtain ⟨_, hsq0, hin0, hrest0⟩ := head_tag_facts h hcq htag
  have hone : (s.heap.map Prod.fst).count p = 1 := by
    have hle := List.nodup_iff_count_le_one.mp h.keys_nodup p
    have hmem : p ∈ s.heap.map Prod.fst := by
      by_contra hn
      rw [(heap_get_none_iff _ _).mpr hn] at hget
      exact Option.noConfusion hget
    have := List.count_pos_iff.mpr hmem
    omega
  refine ⟨h.listen_type, h.listen_fd, ?_, ?_, ?_, ?_, ?_, ?_, ?_, ?_⟩
  · intro x hx
    exact h.keys_lt x (mem_heap_del hx).1
  · exact keys_nodup_heap_del p h.keys_nodup
  · intro x hx
    exact h.rec_ok x (mem_heap_del hx).1
  · have := h.cnt_listen
    simp only [pending, hcq, closed_state, List.map_append, List.count_append, List.map_cons,
      htag, List.drop_one, List.tail_cons] at this ⊢
    simpa [List.count_cons] using this
  · intro q
    have := h.cnt_heap q
    simp only [pending, hcq, closed_state, List.map_append, List.count_append, List.map_cons,
      htag, List.drop_one, List.tail_cons, keys_heap_del] at this ⊢
    by_cases hq : q = p
    · subst hq
      simp only [if_true]
      omega
    · have hq2 : ¬ p = q := fun e => hq e.symm
      simp only [hq, if_false]
      simp only [List.count_cons, beq_iff_eq, Tag.heap.injEq, hq2, if_false] at this
      omega
  · intro x hm
    have hm2 : x ∈ s.sq ++ s.inflight := hm
    have hold := h.sqe_ok x hm2
    have hne : x.user_data ≠ Tag.heap p := by
      intro e
      have hmem : Tag.heap p ∈ (s.sq ++ s.inflight).map Sqe.user_data :=
        e ▸ List.mem_map_of_mem Sqe.user_data hm2
      have hpos := List.count_pos_iff.mpr hmem
      simp only [List.map_append, List.count_append] at hpos
      omega
    unfold SqeOk at hold ⊢
    cases hu : x.user_data with
    | listen_data =>
      simp only [hu] at hold
      simpa [closed_state] using hold
    | heap q =>
      simp only [hu] at hold
      have hq : q ≠ p := fun e => hne (by rw [hu, e])
      simp only [closed_state]
      rw [heap_get_del_ne _ hq]
      exact hold
  · intro fd
    have h1 := h.fd_cnt fd
    have h2 := fds_heap_del h.keys_nodup hget fd
    simp only [closed_state, List.count_append] at h1 ⊢
    by_cases hf : fd = d.fd_
    · subst hf
      simp only [if_true] at h2
      simp [List.count_cons] at h1 ⊢
      omega
    · have hf2 : ¬ d.fd_ = fd := fun e => hf e.symm
      simp only [hf, if_false] at h2
      simp [List.count_cons, hf2] at h1 ⊢
      omega
  · intro c2 hc2 q d2 htag2 hget2 hty2 hpos2
    have hc3 : c2 ∈ rest := by simpa [closed_state, hcq] using hc2
    have hq : q ≠ p := by
      intro e
      have hmem : Tag.heap p ∈ rest.map Cqe.user_data := by
        rw [← e, ← htag2]
        exact List.mem_map_of_mem Cqe.user_data hc3
      have := List.count_pos_iff.mpr hmem
      omega
    have hget3 : heap_get s.heap q = some d2 := by
      rw [← heap_get_del_ne s.heap hq]
      exact hget2
    exact h.read_ok c2 (by rw [hcq]; exact List.mem_cons_of_mem _ hc3) q d2 htag2 hget3 hty2 hpos2

/-! ## The listener arm keeps the invariant -/

theorem InvN_accept_loop {s s1 : State} {listen_fd : Int} {rets : List Int} (h : InvN 0 s)
    (ha : accept_loop s listen_fd rets = .ok s1) : InvN 0 s1 := by
  induction rets generalizing s with
  | nil => simp [accept_loop] at ha
  | cons r rs ih =>
    by_cases hr : r = -1
    · simp only [accept_loop, hr, if_true, Except.ok.injEq] at ha
      subst ha
      refine ⟨h.listen_type, h.listen_fd, h.keys_lt, h.keys_nodup, h.rec_ok, h.cnt_listen,
        h.cnt_heap, ?_, ?_, h.read_ok⟩
      · intro e he
        exact SqeOk_congr rfl rfl (h.sqe_ok e he)
      · intro fd
        have := h.fd_cnt fd
        simpa [List.count_append, List.count_cons] using this
    · by_cases hroom : s.sq.length < URING_ENTRIES
      swap
      · simp [accept_loop, hr, prep, hroom] at ha
      simp only [accept_loop, hr, if_false, prep, hroom, if_true] at ha
      refine ih ?_ ha
      have hfresh : s.next_ptr ∉ s.heap.map Prod.fst := by
        intro hm
        obtain ⟨x, hx, e⟩ := List.mem_map.mp hm
        have := h.keys_lt x hx
        omega
      refine ⟨h.listen_type, h.listen_fd, ?_, ?_, ?_, ?_, ?_, ?_, ?_, ?_⟩
      · intro x hx
        simp only [push_sqe, List.mem_append, List.mem_singleton] at hx ⊢
        rcases hx with hx | hx
        · have := h.keys_lt x hx
          omega
        · subst hx
          simp
      · simp only [push_sqe, List.map_append, List.map_cons, List.map_nil]
        rw [List.nodup_append]
        refine ⟨h.keys_nodup, List.nodup_singleton _, ?_⟩
        intro a ha1 ha2
        rw [List.mem_singleton.mp ha2] at ha1
        exact hfresh ha1
      · intro x hx
        simp only [push_sqe, List.mem_append, List.mem_singleton] at hx
        rcases hx with hx | hx
        · exact h.rec_ok x hx
        · subst hx
          simp [QueueData.new]
      · have := h.cnt_listen
        simp only [pending, push_sqe, List.map_append, List.count_append, List.map_cons,
          List.map_nil] at this ⊢
        simpa [List.count_cons] using this
      · intro q
        have := h.cnt_heap q
        simp only [pending, push_sqe, List.map_append, List.count_append, List.map_cons,
          List.map_nil] at this ⊢
        simp only [List.count_cons, List.count_nil] at this ⊢
        by_cases hq : s.next_ptr = q
        · simp [hq] at this ⊢
          omega
        · simp [hq] at this ⊢
          omega
      · intro x hx
        have hx2 : x = { op := Op.poll_add r POLL_IN, user_data := Tag.heap s.next_ptr } ∨
            x ∈ s.sq ++ s.inflight := by
          simp only [push_sqe, List.mem_append, List.mem_singleton] at hx ⊢
          tauto
        rcases hx2 with e | hm
        · subst e
          simp only [SqeOk, push_sqe]
          rw [heap_get_append, (heap_get_none_iff _ _).mpr hfresh]
          simp [QueueData.new]
        · have hold := h.sqe_ok x hm
          unfold SqeOk at hold ⊢
          cases hu : x.user_data with
          | listen_data =>
            simp only [hu] at hold
            simpa [push_sqe] using hold
          | heap q =>
            simp only [hu] at hold
            obtain ⟨d, hd, hrest⟩ := hold
            refine ⟨d, ?_, hrest⟩
            simp only [push_sqe]
            rw [heap_get_append, hd]
      · intro fd
        have := h.fd_cnt fd
        simp only [push_sqe, List.count_append, List.map_append, List.map_cons, List.map_nil]
          at this ⊢
        simp [List.count_cons, QueueData.new] at this ⊢
        omega
      · intro c2 hc2 q d2 htag2 hget2 hty2 hpos2
        have hget3 : heap_get s.heap q = some d2 := by
          have hg : heap_get (s.heap ++ [(s.next_ptr,
              ({ fd_ := r, type_ := kPollin,
                 buf_ := { iov_base := some (s.next_ptr + 1), iov_len := MAX_LENGTH } } :
                QueueData))]) q = some d2 := hget2
          rw [heap_get_append] at hg
          cases ho : heap_get s.heap q with
          | some x =>
            rw [ho] at hg
            exact hg
          | none =>
            rw [ho] at hg
            by_cases ha2 : s.next_ptr = q
            · simp only [ha2, if_true, Option.some.injEq] at hg
              rw [← hg] at hty2
              have hne : (kPollin : Nat) ≠ kRead := by decide
              exact absurd hty2 hne
            · simp [ha2] at hg
        exact h.read_ok c2 hc2 q d2 htag2 hget3 hty2 hpos2

theorem InvN_seen_listen {s : State} (h : InvN 1 s) {c : Cqe} {rest : List Cqe}
    (hcq : s.cq = c :: rest) (htag : c.user_data = Tag.listen_data) :
    InvN 0 (io_uring_cqe_seen s c) := by
  refine ⟨h.listen_type, h.listen_fd, h.keys_lt, h.keys_nodup, h.rec_ok, ?_, ?_, ?_, ?_, ?_⟩
  · have := h.cnt_listen
    simp only [pending, hcq, io_uring_cqe_seen, List.map_append, List.count_append,
      List.map_cons, htag, List.drop_one, List.tail_cons, List.count_cons_self] at this ⊢
    omega
  · intro q
    have := h.cnt_heap q
    simp only [pending, hcq, io_uring_cqe_seen, List.map_append, List.count_append,
      List.map_cons, htag, List.drop_one, List.tail_cons] at this ⊢
    simpa [List.count_cons] using this
  · intro e he
    exact SqeOk_congr rfl rfl (h.sqe_ok e he)
  · intro fd
    have := h.fd_cnt fd
    simpa [io_uring_cqe_seen, List.count_append, List.count_cons] using this
  · intro c2 hc2 q d2 htag2 hget2 hty2 hpos2
    have hc3 : c2 ∈ s.cq := by
      rw [hcq]
      have : c2 ∈ rest := by simpa [io_uring_cqe_seen, hcq] using hc2
      exact List.mem_cons_of_mem _ this
    exact h.read_ok c2 hc3 q d2 htag2 hget2 hty2 hpos2

theorem InvN_prep_listen {s : State} (h : InvN 0 s) :
    InvN 1 (push_sqe s
      { op := Op.poll_add s.server_sock POLL_IN, user_data := Tag.listen_data }) := by
  refine ⟨h.listen_type, h.listen_fd, h.keys_lt, h.keys_nodup, h.rec_ok, ?_, ?_, ?_, ?_,
    h.read_ok⟩
  · have := h.cnt_listen
    simp only [pending, push_sqe, List.map_append, List.count_append, List.map_cons, List.map_nil,
      List.count_cons_self, List.count_nil] at this ⊢
    omega
  · intro q
    have := h.cnt_heap q
    simp only [pending, push_sqe, List.map_append, List.count_append, List.map_cons, List.map_nil]
      at this ⊢
    simpa [List.count_cons] using this
  · intro x hx
    have hx2 : x = { op := Op.poll_add s.server_sock POLL_IN, user_data := Tag.listen_data } ∨
        x ∈ s.sq ++ s.inflight := by
      simp only [push_sqe, List.mem_append, List.mem_singleton] at hx ⊢
      tauto
    rcases hx2 with e | hm
    · subst e
      simp [SqeOk, push_sqe]
    · exact SqeOk_congr rfl rfl (h.sqe_ok x hm)
  · intro fd
    have := h.fd_cnt fd
    simpa [push_sqe, List.count_append, List.count_cons] using this

theorem heap_type_facts {s : State} {n : Nat} (h : InvN n s) {p : Nat} {d : QueueData}
    (hget : heap_get s.heap p = some d) :
    (d.type_ = kPollin ∨ d.type_ = kRead ∨ d.type_ = kWrite) ∧
      d.buf_ = { iov_base := some (p + 1), iov_len := MAX_LENGTH } :=
  h.rec_ok (p, d) (heap_get_mem hget)

theorem dispatch_listen (s : State) (c : Cqe) (rets : List Int)
    (htag : c.user_data = Tag.listen_data) (hty : s.listen_data.type_ = kListen) :
    dispatch s c rets =
      match accept_loop (io_uring_cqe_seen s c) s.listen_data.fd_ rets with
      | .error e => .error e
      | .ok s2 =>
        prep s2 { op := Op.poll_add s2.server_sock POLL_IN, user_data := Tag.listen_data } := by
  simp [dispatch, tag_get, htag, hty]

theorem InvN_dispatch {s s1 : State} (h : InvN 1 s) {c : Cqe} {rest : List Cqe}
    (hcq : s.cq = c :: rest) {rets : List Int} (hd : dispatch s c rets = .ok s1) :
    InvN 1 s1 := by
  cases htag : c.user_data with
  | listen_data =>
    rw [dispatch_listen s c rets htag h.listen_type] at hd
    cases hacc : accept_loop (io_uring_cqe_seen s c) s.listen_data.fd_ rets with
    | error e => simp [hacc] at hd
    | ok s2 =>
      simp only [hacc, prep] at hd
      obtain ⟨_, hd⟩ := ok_of_room hd
      subst hd
      exact InvN_prep_listen (InvN_accept_loop (InvN_seen_listen h hcq htag) hacc)
  | heap p =>
    obtain ⟨⟨d, hget⟩, _⟩ := head_tag_facts h hcq htag
    rcases (heap_type_facts h hget).1 with hty | hty | hty
    · rw [dispatch_pollin s c rets p d htag hget hty] at hd
      obtain ⟨_, hd⟩ := ok_of_room hd
      subst hd
      exact InvN_cycle h hcq htag hget _ _ (Or.inr (Or.inl ⟨rfl, rfl⟩))
    · by_cases hres : c.res < 0
      · rw [dispatch_read_neg s c rets p d htag hget hty hres] at hd
        simp only [Except.ok.injEq] at hd
        subst hd
        exact InvN_closed h hcq htag hget
      · rw [dispatch_read_nonneg s c rets p d htag hget hty (not_lt.mp hres)] at hd
        obtain ⟨_, hd⟩ := ok_of_room hd
        subst hd
        exact InvN_cycle h hcq htag hget _ _ (Or.inr (Or.inr ⟨rfl, _, rfl⟩))
    · rw [dispatch_write s c rets p d htag hget hty] at hd
      obtain ⟨_, hd⟩ := ok_of_room hd
      subst hd
      exact InvN_cycle h hcq htag hget _ _ (Or.inl ⟨rfl, rfl⟩)

theorem Reachable.inv {s : State} (h : Reachable s) : InvN 1 s := by
  induction h with
  | startup server_sock => exact InvN_startup server_sock
  | submit _ ih => exact InvN_submit ih
  | complete _ hc ih => exact InvN_complete ih hc
  | dispatch _ hcq _ hd ih => exact InvN_dispatch ih hcq hd

/-! ## Records and requests of the accept loop -/

theorem new_records_fds (a : Nat) (fs : List Int) :
    (new_records a fs).map (fun x => x.2.fd_) = fs := by
  induction fs generalizing a with
  | nil => rfl
  | cons f fs ih => simp [new_records, ih]

theorem new_records_mem {a : Nat} {fs : List Int} {x : Nat × QueueData}
    (hx : x ∈ new_records a fs) :
    x.2.type_ = kPollin ∧ x.2.buf_ = { iov_base := some (x.1 + 1), iov_len := 4096 } ∧
      a ≤ x.1 := by
  induction fs generalizing a with
  | nil => simp [new_records] at hx
  | cons f fs ih =>
    simp only [new_records, List.mem_cons] at hx
    rcases hx with e | hm
    · subst e
      exact ⟨rfl, rfl, le_refl _⟩
    · obtain ⟨h1, h2, h3⟩ := ih hm
      exact ⟨h1, h2, by omega⟩

theorem new_records_keys_nodup (a : Nat) (fs : List Int) :
    ((new_records a fs).map Prod.fst).Nodup := by
  induction fs generalizing a with
  | nil => simp [new_records]
  | cons f fs ih =>
    simp only [new_records, List.map_cons, List.nodup_cons]
    refine ⟨?_, ih (a + 2)⟩
    intro hm
    obtain ⟨x, hx, e⟩ := List.mem_map.mp hm
    have := (new_records_mem hx).2.2
    omega

theorem new_polls_eq (a : Nat) (fs : List Int) :
    new_polls a fs = (new_records a fs).map
      (fun x => ({ op := Op.poll_add x.2.fd_ POLL_IN, user_data := Tag.heap x.1 } : Sqe)) := by
  induction fs generalizing a with
  | nil => rfl
  | cons f fs ih => simp [new_polls, new_records, ih]

theorem new_polls_length (a : Nat) (fs : List Int) : (new_polls a fs).length = fs.length := by
  induction fs generalizing a with
  | nil => rfl
  | cons f fs ih => simp [new_polls, ih]

/-! ## The accept loop in closed form -/

theorem accept_loop_cons (s : State) (listen_fd r : Int) (rs : List Int) (hr : r ≠ -1) :
    accept_loop s listen_fd (r :: rs) =
      if s.sq.length < URING_ENTRIES then accept_loop (accept_one s listen_fd r) listen_fd rs
      else .error Abort.null_sqe := by
  by_cases hroom : s.sq.length < URING_ENTRIES <;>
  simp [accept_loop, hr, prep, hroom, accept_one]

theorem accept_loop_cons_ok {s s1 : State} {listen_fd r : Int} {rs : List Int} (hr : r ≠ -1)
    (ha : accept_loop s listen_fd (r :: rs) = .ok s1) :
    s.sq.length < URING_ENTRIES ∧ accept_loop (accept_one s listen_fd r) listen_fd rs = .ok s1 := by
  rw [accept_loop_cons s listen_fd r rs hr] at ha
  by_cases hroom : s.sq.length < URING_ENTRIES
  · simp only [hroom, if_true] at ha
    exact ⟨hroom, ha⟩
  · simp only [hroom, if_false] at ha
    exact Except.noConfusion ha

theorem accept_one_sq_length (s : State) (listen_fd f : Int) :
    (accept_one s listen_fd f).sq.length = s.sq.length + 1 := by
  simp [accept_one, push_sqe]

theorem accept_loop_closed (s : State) (listen_fd : Int) (fs rest : List Int)
    (hfs : ∀ f ∈ fs, f ≠ -1) (hle : s.sq.length ≤ URING_ENTRIES) :
    accept_loop s listen_fd (fs ++ -1 :: rest) =
      if s.sq.length + fs.length ≤ URING_ENTRIES then .ok
        { s with heap := s.heap ++ new_records s.next_ptr fs,
                 next_ptr := s.next_ptr + 2 * fs.length,
                 fds := s.fds ++ fs,
                 sq := s.sq ++ new_polls s.next_ptr fs,
                 log := s.log ++ accept_log listen_fd s.next_ptr fs
                          ++ [Effect.accept4 listen_fd (-1)] }
      else .error Abort.null_sqe := by
  induction fs generalizing s with
  | nil => simp [accept_loop, new_records, new_polls, accept_log, hle]
  | cons f fs ih =>
    have hf : f ≠ -1 := hfs f (List.mem_cons_self _ _)
    have hfs2 : ∀ g ∈ fs, g ≠ -1 := fun g hg => hfs g (List.mem_cons_of_mem _ hg)
    rw [List.cons_append, accept_loop_cons s listen_fd f _ hf]
    by_cases hroom : s.sq.length < URING_ENTRIES
    · have hle2 : (accept_one s listen_fd f).sq.length ≤ URING_ENTRIES := by
        simp only [accept_one, push_sqe, List.length_append, List.length_singleton]
        omega
      simp only [hroom, if_true]
      rw [ih _ hfs2 hle2]
      by_cases hall : s.sq.length + (f :: fs).length ≤ URING_ENTRIES
      · have hall2 : (accept_one s listen_fd f).sq.length + fs.length ≤ URING_ENTRIES := by
          rw [accept_one_sq_length]
          simp only [List.length_cons] at hall
          omega
        simp only [hall, hall2, if_true]
        simp only [accept_one, push_sqe, new_records, new_polls, accept_log, QueueData.new,
          List.length_cons, List.append_assoc, List.cons_append, List.nil_append,
          Except.ok.injEq, State.mk.injEq, true_and, and_true]
        omega
      · have hall2 : ¬ (accept_one s listen_fd f).sq.length + fs.length ≤ URING_ENTRIES := by
          rw [accept_one_sq_length]
          simp only [List.length_cons] at hall
          omega
        simp only [hall, hall2, if_false]
    · have hall : ¬ s.sq.length + (f :: fs).length ≤ URING_ENTRIES := by
        simp only [List.length_cons]
        omega
      simp only [hroom, hall, if_false]

theorem accepted_append (fs rest : List Int) (hfs : ∀ f ∈ fs, f ≠ -1) :
    accepted (fs ++ -1 :: rest) = fs := by
  induction fs with
  | nil => simp [accepted]
  | cons f fs ih =>
    have hf : f ≠ -1 := hfs f (List.mem_cons_self _ _)
    have hfs2 : ∀ g ∈ fs, g ≠ -1 := fun g hg => hfs g (List.mem_cons_of_mem _ hg)
    simp [accepted, hf, ih hfs2]

theorem accept_loop_fds {s s1 : State} {listen_fd : Int} {rets : List Int}
    (ha : accept_loop s listen_fd rets = .ok s1) : s1.fds = s.fds ++ accepted rets := by
  induction rets generalizing s with
  | nil => simp [accept_loop] at ha
  | cons r rs ih =>
    by_cases hr : r = -1
    · simp only [accept_loop, hr, if_true, Except.ok.injEq] at ha
      subst ha
      simp [accepted, hr]
    · obtain ⟨_, ha⟩ := accept_loop_cons_ok hr ha
      rw [ih ha]
      simp [accepted, accept_one, push_sqe, hr]

theorem rets_split (rets : List Int) (h : (-1 : Int) ∈ rets) :
    (∃ rest, rets = accepted rets ++ -1 :: rest) ∧ ∀ f ∈ accepted rets, f ≠ -1 := by
  induction rets with
  | nil => simp at h
  | cons r rs ih =>
    by_cases hr : r = -1
    · subst hr
      exact ⟨⟨rs, by simp [accepted]⟩, by simp [accepted]⟩
    · have h2 : (-1 : Int) ∈ rs := by
        rcases List.mem_cons.mp h with e | hm
        · exact absurd e.symm hr
        · exact hm
      obtain ⟨⟨rest, h3⟩, h4⟩ := ih h2
      refine ⟨⟨rest, ?_⟩, ?_⟩
      · simp only [accepted, hr, if_false, List.cons_append]
        rw [← h3]
      · intro f hf
        simp only [accepted, hr, if_false, List.mem_cons] at hf
        rcases hf with e | hm
        · rw [e]
          exact hr
        · exact h4 f hm

theorem dispatch_listen_closed (s : State) (c : Cqe) (fs rest : List Int)
    (htag : c.user_data = Tag.listen_data) (hty : s.listen_data.type_ = kListen)
    (hfs : ∀ f ∈ fs, f ≠ -1) (hle : s.sq.length ≤ URING_ENTRIES) :
    dispatch s c (fs ++ -1 :: rest) =
      if s.sq.length + fs.length < URING_ENTRIES then .ok
        { s with
            cq := s.cq.drop 1,
            heap := s.heap ++ new_records s.next_ptr fs,
            next_ptr := s.next_ptr + 2 * fs.length,
            fds := s.fds ++ fs,
            sq := s.sq ++ new_polls s.next_ptr fs ++
              [{ op := Op.poll_add s.server_sock POLL_IN, user_data := Tag.listen_data }],
            log := s.log ++ Effect.cqe_seen c :: accept_log s.listen_data.fd_ s.next_ptr fs ++
              [Effect.accept4 s.listen_data.fd_ (-1),
               Effect.prep { op := Op.poll_add s.server_sock POLL_IN,
                             user_data := Tag.listen_data }] }
      else .error Abort.null_sqe := by
  rw [dispatch_listen s c _ htag hty,
    accept_loop_closed (io_uring_cqe_seen s c) s.listen_data.fd_ fs rest hfs hle]
  by_cases h1 : s.sq.length + fs.length < URING_ENTRIES
  · have h2 : (io_uring_cqe_seen s c).sq.length + fs.length ≤ URING_ENTRIES := le_of_lt h1
    simp only [h2, if_true, h1]
    simp [prep, push_sqe, io_uring_cqe_seen, new_polls_length, h1]
  · by_cases h2 : (io_uring_cqe_seen s c).sq.length + fs.length ≤ URING_ENTRIES
    · have h3 : ¬ (s.sq.length + (new_polls s.next_ptr fs).length < URING_ENTRIES) := by
        rw [new_polls_length]
        exact h1
      simp only [h2, if_true, h1, if_false]
      simp [prep, io_uring_cqe_seen, h3]
    · simp only [h2, h1, if_false]

theorem dispatch_fds {s s1 : State} (h : InvN 1 s) {c : Cqe} {rest : List Cqe}
    (hcq : s.cq = c :: rest) {rets : List Int} (hd : dispatch s c rets = .ok s1) :
    s1.fds = s.fds ∨ s1.fds = s.fds ++ accepted rets := by
  cases htag : c.user_data with
  | listen_data =>
    rw [dispatch_listen s c rets htag h.listen_type] at hd
    cases hacc : accept_loop (io_uring_cqe_seen s c) s.listen_data.fd_ rets with
    | error e => simp [hacc] at hd
    | ok s2 =>
      simp only [hacc, prep] at hd
      obtain ⟨_, hd⟩ := ok_of_room hd
      subst hd
      right
      have := accept_loop_fds hacc
      simpa [push_sqe, io_uring_cqe_seen] using this
  | heap p =>
    left
    obtain ⟨⟨d, hget⟩, _⟩ := head_tag_facts h hcq htag
    rcases (heap_type_facts h hget).1 with hty | hty | hty
    · rw [dispatch_pollin s c rets p d htag hget hty] at hd
      obtain ⟨_, hd⟩ := ok_of_room hd
      subst hd
      rfl
    · by_cases hres : c.res < 0
      · rw [dispatch_read_neg s c rets p d htag hget hty hres] at hd
        simp only [Except.ok.injEq] at hd
        subst hd
        rfl
      · rw [dispatch_read_nonneg s c rets p d htag hget hty (not_lt.mp hres)] at hd
        obtain ⟨_, hd⟩ := ok_of_room hd
        subst hd
        rfl
    · rw [dispatch_write s c rets p d htag hget hty] at hd
      obtain ⟨_, hd⟩ := ok_of_room hd
      subst hd
      rfl

theorem Reachable.fds_nodup {s : State} (h : Reachable s) : s.fds.Nodup := by
  induction h with
  | startup server_sock => exact List.nodup_singleton _
  | submit _ ih => exact ih
  | @complete s s1 i res data _ hc ih =>
    unfold kernel_complete at hc
    cases hg : s.inflight[i]? with
    | none => simp [hg] at hc
    | some e =>
      simp only [hg] at hc
      by_cases hv : valid_completion e.op res data = true
      · simp only [hv, if_true, Option.some.injEq] at hc
        subst hc
        exact ih
      · simp [hv] at hc
  | dispatch hr hcq hf hd ih =>
    rcases dispatch_fds hr.inv hcq hd with e | e
    · rw [e]
      exact ih
    · rw [e, List.nodup_append]
      refine ⟨ih, hf.1, ?_⟩
      intro a ha1 ha2
      exact hf.2 a ha2 ha1

/-! ## How the loop body can end -/

theorem accept_loop_error (s : State) (listen_fd : Int) (rets : List Int) (e : Abort)
    (h : accept_loop s listen_fd rets = .error e) :
    e = Abort.null_sqe ∨ (e = Abort.accept_script_ended ∧ (-1 : Int) ∉ rets) := by
  induction rets generalizing s with
  | nil =>
    simp only [accept_loop, Except.error.injEq] at h
    exact Or.inr ⟨h.symm, List.not_mem_nil _⟩
  | cons r rs ih =>
    by_cases hr : r = -1
    · simp [accept_loop, hr] at h
    · rw [accept_loop_cons s listen_fd r rs hr] at h
      by_cases hroom : s.sq.length < URING_ENTRIES
      · simp only [hroom, if_true] at h
        rcases ih _ h with h1 | ⟨h1, h2⟩
        · exact Or.inl h1
        · refine Or.inr ⟨h1, ?_⟩
          intro hm
          rcases List.mem_cons.mp hm with e1 | hm2
          · exact hr e1.symm
          · exact h2 hm2
      · simp only [hroom, if_false, Except.error.injEq] at h
        exact Or.inl h.symm

theorem accept_loop_sq_le {s s1 : State} {listen_fd : Int} {rets : List Int}
    (hle : s.sq.length ≤ URING_ENTRIES) (ha : accept_loop s listen_fd rets = .ok s1) :
    s1.sq.length ≤ URING_ENTRIES := by
  induction rets generalizing s with
  | nil => simp [accept_loop] at ha
  | cons r rs ih =>
    by_cases hr : r = -1
    · simp only [accept_loop, hr, if_true, Except.ok.injEq] at ha
      subst ha
      exact hle
    · obtain ⟨hroom, ha⟩ := accept_loop_cons_ok hr ha
      refine ih ?_ ha
      rw [accept_one_sq_length]
      omega

theorem dispatch_error {s : State} (h : InvN 1 s) {c : Cqe} {rest : List Cqe}
    (hcq : s.cq = c :: rest) (rets : List Int) (e : Abort)
    (hd : dispatch s c rets = .error e) :
    e = Abort.null_sqe ∨
      (e = Abort.accept_script_ended ∧ c.user_data = Tag.listen_data ∧ (-1 : Int) ∉ rets) := by
  cases htag : c.user_data with
  | listen_data =>
    rw [dispatch_listen s c rets htag h.listen_type] at hd
    cases hacc : accept_loop (io_uring_cqe_seen s c) s.listen_data.fd_ rets with
    | error e2 =>
      simp only [hacc, Except.error.injEq] at hd
      subst hd
      rcases accept_loop_error _ _ _ _ hacc with h1 | ⟨h1, h2⟩
      · exact Or.inl h1
      · exact Or.inr ⟨h1, rfl, h2⟩
    | ok s2 =>
      simp only [hacc, prep] at hd
      exact Or.inl (error_of_room hd).2.symm
  | heap p =>
    left
    obtain ⟨⟨d, hget⟩, _⟩ := head_tag_facts h hcq htag
    rcases (heap_type_facts h hget).1 with hty | hty | hty
    · rw [dispatch_pollin s c rets p d htag hget hty] at hd
      exact (error_of_room hd).2.symm
    · by_cases hres : c.res < 0
      · rw [dispatch_read_neg s c rets p d htag hget hty hres] at hd
        exact Except.noConfusion hd
      · rw [dispatch_read_nonneg s c rets p d htag hget hty (not_lt.mp hres)] at hd
        exact (error_of_room hd).2.symm
    · rw [dispatch_write s c rets p d htag hget hty] at hd
      exact (error_of_room hd).2.symm

theorem dispatch_sq_le {s s1 : State} (h : InvN 1 s) {c : Cqe} {rest : List Cqe}
    (hcq : s.cq = c :: rest) {rets : List Int} (hle : s.sq.length ≤ URING_ENTRIES)
    (hd : dispatch s c rets = .ok s1) : s1.sq.length ≤ URING_ENTRIES := by
  cases htag : c.user_data with
  | listen_data =>
    rw [dispatch_listen s c rets htag h.listen_type] at hd
    cases hacc : accept_loop (io_uring_cqe_seen s c) s.listen_data.fd_ rets with
    | error e => simp [hacc] at hd
    | ok s2 =>
      simp only [hacc, prep] at hd
      obtain ⟨hroom, hd⟩ := ok_of_room hd
      subst hd
      simp only [push_sqe, List.length_append, List.length_singleton]
      omega
  | heap p =>
    obtain ⟨⟨d, hget⟩, _⟩ := head_tag_facts h hcq htag
    have hcyc : ∀ t op, s.sq.length < URING_ENTRIES →
        (cycle_state s c p t op).sq.length ≤ URING_ENTRIES := by
      intro t op hroom
      simp only [cycle_state, List.length_append, List.length_singleton]
      omega
    rcases (heap_type_facts h hget).1 with hty | hty | hty
    · rw [dispatch_pollin s c rets p d htag hget hty] at hd
      obtain ⟨hroom, hd⟩ := ok_of_room hd
      subst hd
      exact hcyc _ _ hroom
    · by_cases hres : c.res < 0
      · rw [dispatch_read_neg s c rets p d htag hget hty hres] at hd
        simp only [Except.ok.injEq] at hd
        subst hd
        exact hle
      · rw [dispatch_read_nonneg s c rets p d htag hget hty (not_lt.mp hres)] at hd
        obtain ⟨hroom, hd⟩ := ok_of_room hd
        subst hd
        exact hcyc _ _ hroom
    · rw [dispatch_write s c rets p d htag hget hty] at hd
      obtain ⟨hroom, hd⟩ := ok_of_room hd
      subst hd
      exact hcyc _ _ hroom

theorem Reachable.sq_le {s : State} (h : Reachable s) : s.sq.length ≤ URING_ENTRIES := by
  induction h with
  | startup server_sock =>
    show (1 : Nat) ≤ 64
    decide
  | submit _ _ => exact Nat.zero_le _
  | @complete s s1 i res data _ hc ih =>
    unfold kernel_complete at hc
    cases hg : s.inflight[i]? with
    | none => simp [hg] at hc
    | some e =>
      simp only [hg] at hc
      by_cases hv : valid_completion e.op res data = true
      · simp only [hv, if_true, Option.some.injEq] at hc
        subst hc
        exact ih
      · simp [hv] at hc
  | dispatch hr hcq _ hd ih => exact dispatch_sq_le hr.inv hcq ih hd

theorem dispatch_progress {s : State} (h : InvN 1 s) {c : Cqe} {rest : List Cqe}
    (hcq : s.cq = c :: rest) (rets : List Int)
    (hr : c.user_data = Tag.listen_data → (-1 : Int) ∈ rets)
    (hroom : s.sq.length + requests_of (c, rets) ≤ URING_ENTRIES) :
    ∃ s1, dispatch s c rets = .ok s1 ∧ s1.sq.length ≤ s.sq.length + requests_of (c, rets) := by
  cases htag : c.user_data with
  | listen_data =>
    obtain ⟨⟨rest2, hsplit⟩, hfs⟩ := rets_split rets (hr htag)
    have hreq : requests_of (c, rets) = (accepted rets).length + 1 := by
      simp [requests_of, htag]
    rw [hreq] at hroom ⊢
    have hd := dispatch_listen_closed s c (accepted rets) rest2 htag h.listen_type hfs (by omega)
    rw [← hsplit] at hd
    have hlt : s.sq.length + (accepted rets).length < URING_ENTRIES := by omega
    simp only [hlt, if_true] at hd
    refine ⟨_, hd, ?_⟩
    simp [new_polls_length]
  | heap p =>
    have hreq : requests_of (c, rets) = 1 := by
      simp [requests_of, htag]
    rw [hreq] at hroom ⊢
    have hlt : s.sq.length < URING_ENTRIES := by omega
    obtain ⟨⟨d, hget⟩, _⟩ := head_tag_facts h hcq htag
    have hcyc : ∀ t op, (cycle_state s c p t op).sq.length ≤ s.sq.length + 1 := by
      intro t op
      simp [cycle_state]
    rcases (heap_type_facts h hget).1 with hty | hty | hty
    · refine ⟨cycle_state s c p kRead (Op.readv d.fd_ d.buf_ 1 0), ?_, hcyc _ _⟩
      rw [dispatch_pollin s c rets p d htag hget hty]
      simp only [hlt, if_true]
    · by_cases hres : c.res < 0
      · refine ⟨_, dispatch_read_neg s c rets p d htag hget hty hres, ?_⟩
        simp [closed_state]
      · refine ⟨cycle_state s c p kWrite
          (Op.write d.fd_ d.buf_.iov_base (to_unsigned c.res) 0), ?_, hcyc _ _⟩
        rw [dispatch_read_nonneg s c rets p d htag hget hty (not_lt.mp hres)]
        simp only [hlt, if_true]
    · refine ⟨cycle_state s c p kPollin (Op.poll_add d.fd_ POLL_IN), ?_, hcyc _ _⟩
      rw [dispatch_write s c rets p d htag hget hty]
      simp only [hlt, if_true]

/-! ## The log of one batch -/

theorem accept_loop_log {s s1 : State} {listen_fd : Int} {rets : List Int}
    (ha : accept_loop s listen_fd rets = .ok s1) :
    ∃ t, s1.log = s.log ++ t ∧ (∀ e ∈ t, Effect.is_seen e = false) ∧ s1.cq = s.cq ∧
      s1.sq = s.sq ++ t.filterMap Effect.prepared := by
  induction rets generalizing s with
  | nil => simp [accept_loop] at ha
  | cons r rs ih =>
    by_cases hr : r = -1
    · simp only [accept_loop, hr, if_true, Except.ok.injEq] at ha
      subst ha
      exact ⟨[Effect.accept4 listen_fd (-1)], rfl, by simp [Effect.is_seen], rfl,
        by simp [Effect.prepared]⟩
    · obtain ⟨_, ha⟩ := accept_loop_cons_ok hr ha
      obtain ⟨t, h1, h2, h3, h4⟩ := ih ha
      refine ⟨Effect.accept4 listen_fd r ::
        Effect.prep { op := Op.poll_add r POLL_IN, user_data := Tag.heap s.next_ptr } :: t,
        ?_, ?_, ?_, ?_⟩
      · rw [h1]
        simp [accept_one, push_sqe]
      · intro e he
        simp only [List.mem_cons] at he
        rcases he with he | he | he
        · subst he
          rfl
        · subst he
          rfl
        · exact h2 e he
      · rw [h3]
        rfl
      · rw [h4]
        simp [accept_one, push_sqe, Effect.prepared]

theorem dispatch_log {s s1 : State} (h : InvN 1 s) {c : Cqe} {rest : List Cqe}
    (hcq : s.cq = c :: rest) {rets : List Int} (hd : dispatch s c rets = .ok s1) :
    ∃ t, s1.log = s.log ++ Effect.cqe_seen c :: t ∧ (∀ e ∈ t, Effect.is_seen e = false) ∧
      s1.cq = rest ∧ s1.sq = s.sq ++ t.filterMap Effect.prepared := by
  cases htag : c.user_data with
  | listen_data =>
    rw [dispatch_listen s c rets htag h.listen_type] at hd
    cases hacc : accept_loop (io_uring_cqe_seen s c) s.listen_data.fd_ rets with
    | error e => simp [hacc] at hd
    | ok s2 =>
      simp only [hacc, prep] at hd
      obtain ⟨_, hd⟩ := ok_of_room hd
      subst hd
      obtain ⟨t, h1, h2, h3, h4⟩ := accept_loop_log hacc
      refine ⟨t ++ [Effect.prep { op := Op.poll_add s2.server_sock POLL_IN,
                                  user_data := Tag.listen_data }], ?_, ?_, ?_, ?_⟩
      · simp [push_sqe, h1, io_uring_cqe_seen]
      · intro e he
        rcases List.mem_append.mp he with he | he
        · exact h2 e he
        · rw [List.mem_singleton.mp he]
          rfl
      · simp [push_sqe, h3, io_uring_cqe_seen, hcq]
      · simp [push_sqe, h4, io_uring_cqe_seen, Effect.prepared]
  | heap p =>
    obtain ⟨⟨d, hget⟩, _⟩ := head_tag_facts h hcq htag
    have hcyc : ∀ t op, ∃ tl, (cycle_state s c p t op).log = s.log ++ Effect.cqe_seen c :: tl ∧
        (∀ e ∈ tl, Effect.is_seen e = false) ∧ (cycle_state s c p t op).cq = rest ∧
        (cycle_state s c p t op).sq = s.sq ++ tl.filterMap Effect.prepared := by
      intro t op
      refine ⟨[Effect.prep { op := op, user_data := Tag.heap p }], rfl, ?_, ?_, ?_⟩
      · intro e he
        rw [List.mem_singleton.mp he]
        rfl
      · simp [cycle_state, hcq]
      · simp [cycle_state, Effect.prepared]
    rcases (heap_type_facts h hget).1 with hty | hty | hty
    · rw [dispatch_pollin s c rets p d htag hget hty] at hd
      obtain ⟨_, hd⟩ := ok_of_room hd
      subst hd
      exact hcyc _ _
    · by_cases hres : c.res < 0
      · rw [dispatch_read_neg s c rets p d htag hget hty hres] at hd
        simp only [Except.ok.injEq] at hd
        subst hd
        refine ⟨[Effect.shutdown d.fd_, Effect.delete_buf d.buf_.iov_base], rfl, ?_, ?_, ?_⟩
        · intro e he
          simp only [List.mem_cons, List.mem_singleton, List.not_mem_nil, or_false] at he
          rcases he with he | he
          · subst he
            rfl
          · subst he
            rfl
        · simp [closed_state, hcq]
        · simp [closed_state, Effect.prepared]
      · rw [dispatch_read_nonneg s c rets p d htag hget hty (not_lt.mp hres)] at hd
        obtain ⟨_, hd⟩ := ok_of_room hd
        subst hd
        exact hcyc _ _
    · rw [dispatch_write s c rets p d htag hget hty] at hd
      obtain ⟨_, hd⟩ := ok_of_room hd
      subst hd
      exact hcyc _ _

theorem for_cqes_reachable (batch : List (Cqe × List Int)) :
    ∀ (s s1 : State) (rest : List Cqe), Reachable s → s.cq = batch.map Prod.fst ++ rest →
      FreshBatch s batch → for_cqes s batch = .ok s1 → Reachable s1 := by
  induction batch with
  | nil =>
    intro s s1 rest h _ _ hf
    simp only [for_cqes, Except.ok.injEq] at hf
    exact hf ▸ h
  | cons x xs ih =>
    intro s s1 rest h hcq hfresh hf
    have hcq2 : s.cq = x.1 :: (xs.map Prod.fst ++ rest) := by simpa using hcq
    cases hd : dispatch s x.1 x.2 with
    | error e => simp [for_cqes, hd] at hf
    | ok s2 =>
      simp only [for_cqes, hd] at hf
      obtain ⟨_, _, _, hc3, _⟩ := dispatch_log h.inv hcq2 hd
      exact ih s2 s1 rest (Reachable.dispatch h hcq2 hfresh.1 hd) hc3 (hfresh.2 s2 hd) hf

theorem batch_fst (cqes : List Cqe) (accept_rets : Nat → List Int) :
    (cqes.enum.map (fun x => (x.2, accept_rets x.1))).map Prod.fst = cqes := by
  rw [List.map_map]
  exact List.enum_map_snd cqes

theorem drain_batch_reachable {s s1 : State} (accept_rets : Nat → List Int) (h : Reachable s)
    (hfresh : FreshBatch s ((s.cq.take BACKLOG).enum.map (fun x => (x.2, accept_rets x.1))))
    (hb : drain_batch s accept_rets = .ok s1) : Reachable s1 := by
  refine for_cqes_reachable _ s s1 (s.cq.drop BACKLOG) h ?_ hfresh hb
  rw [batch_fst]
  exact (List.take_append_drop BACKLOG s.cq).symm

theorem kernel_run_reachable {s s1 : State} (hk : KernelRun s s1) (h : Reachable s) :
    Reachable s1 := by
  induction hk with
  | refl => exact h
  | step _ hc ih => exact Reachable.complete ih hc

theorem loop_head_reachable {s : State} (h : LoopHead s) : Reachable s := by
  induction h with
  | startup server_sock => exact Reachable.startup server_sock
  | pass _ hk _ hfresh hd ih =>
    exact drain_batch_reachable _ (kernel_run_reachable hk (Reachable.submit ih)) hfresh hd

/-! ## Descriptors of live connections -/

theorem Reachable.fd_facts {s : State} (h : Reachable s) (fd : Int) :
    s.log.count (Effect.shutdown fd) + (s.heap.map (fun x => x.2.fd_)).count fd
      + (if fd = s.server_sock then 1 else 0) ≤ 1 := by
  rw [h.inv.fd_cnt fd]
  exact List.nodup_iff_count_le_one.mp h.fds_nodup fd

theorem Reachable.heap_fd {s : State} (h : Reachable s) {x : Nat × QueueData}
    (hx : x ∈ s.heap) :
    x.2.fd_ ≠ s.server_sock ∧ x.2.fd_ ∈ s.fds ∧ s.log.count (Effect.shutdown x.2.fd_) = 0 := by
  have hmem : x.2.fd_ ∈ s.heap.map (fun x => x.2.fd_) :=
    List.mem_map_of_mem (fun x => x.2.fd_) hx
  have hpos := List.count_pos_iff.mpr hmem
  have hle := h.fd_facts x.2.fd_
  have heq := h.inv.fd_cnt x.2.fd_
  refine ⟨?_, ?_, by omega⟩
  · intro e
    simp only [e, if_true] at hle
    rw [e] at hpos
    omega
  · apply List.count_pos_iff.mp
    omega

theorem Reachable.heap_fds_nodup {s : State} (h : Reachable s) :
    (s.heap.map (fun x => x.2.fd_)).Nodup := by
  rw [List.nodup_iff_count_le_one]
  intro fd
  have := h.fd_facts fd
  omega

theorem sqe_fd {s : State} {e : Sqe} (h : SqeOk s e) :
    match e.user_data with
    | .listen_data => e.op.fd = s.server_sock
    | .heap p => ∃ d, heap_get s.heap p = some d ∧ e.op.fd = d.fd_ := by
  unfold SqeOk at h
  cases hu : e.user_data with
  | listen_data =>
    simp only [hu] at h ⊢
    rw [h]
    rfl
  | heap p =>
    simp only [hu] at h ⊢
    obtain ⟨d, hd, hk⟩ := h
    refine ⟨d, hd, ?_⟩
    rcases hk with ⟨_, e1⟩ | ⟨_, e1⟩ | ⟨_, n, e1⟩ <;> rw [e1] <;> rfl

theorem queued_tags_nodup {s : State} (h : InvN 1 s) :
    ((s.sq ++ s.inflight).map Sqe.user_data).Nodup := by
  rw [List.nodup_iff_count_le_one]
  intro t
  have hle : ((s.sq ++ s.inflight).map Sqe.user_data).count t ≤ (pending s).count t := by
    simp only [pending, List.map_append, List.count_append]
    omega
  cases t with
  | listen_data =>
    have := h.cnt_listen
    omega
  | heap p =>
    have := h.cnt_heap p
    have := List.nodup_iff_count_le_one.mp h.keys_nodup p
    omega

theorem Reachable.queued_fds_nodup {s : State} (h : Reachable s) :
    ((s.sq ++ s.inflight).map (fun e => e.op.fd)).Nodup := by
  have htags := queued_tags_nodup h.inv
  refine List.Nodup.map_on ?_ (List.Nodup.of_map _ htags)
  intro x hx y hy hxy
  apply List.inj_on_of_nodup_map htags hx hy
  have h1 := sqe_fd (h.inv.sqe_ok x hx)
  have h2 := sqe_fd (h.inv.sqe_ok y hy)
  cases hux : x.user_data with
  | listen_data =>
    cases huy : y.user_data with
    | listen_data => rfl
    | heap q =>
      simp only [hux] at h1
      simp only [huy] at h2
      obtain ⟨d, hd, e2⟩ := h2
      have := (h.heap_fd (heap_get_mem hd)).1
      exact absurd (by rw [← e2, ← hxy, h1]) this
  | heap p =>
    simp only [hux] at h1
    obtain ⟨d1, hd1, e1⟩ := h1
    cases huy : y.user_data with
    | listen_data =>
      simp only [huy] at h2
      have := (h.heap_fd (heap_get_mem hd1)).1
      exact absurd (by rw [← e1, hxy, h2]) this
    | heap q =>
      simp only [huy] at h2
      obtain ⟨d2, hd2, e2⟩ := h2
      have hfd : d1.fd_ = d2.fd_ := by rw [← e1, ← e2, hxy]
      have := List.inj_on_of_nodup_map h.heap_fds_nodup (heap_get_mem hd1) (heap_get_mem hd2) hfd
      rw [(Prod.mk.inj this).1]

/-! ## The sample run is a run of the program -/

theorem ex_listen_ready_reachable : Reachable ex_listen_ready :=
  Reachable.complete (Reachable.submit (Reachable.startup 3))
    (rfl : kernel_complete (io_uring_submit (startup 3)) 0 1 [] = some ex_listen_ready)

theorem ex_accepted_reachable : Reachable ex_accepted :=
  Reachable.dispatch ex_listen_ready_reachable
    (rfl : ex_listen_ready.cq = { user_data := Tag.listen_data, res := 1 } :: [])
    (⟨by decide, by decide⟩ : FreshAccepts ex_listen_ready [5, -1]) rfl

theorem ex_poll_ready_reachable : Reachable ex_poll_ready :=
  Reachable.complete (Reachable.submit ex_accepted_reachable)
    (rfl : kernel_complete (io_uring_submit ex_accepted) 0 1 [] = some ex_poll_ready)

theorem ex_reading_reachable : Reachable ex_reading :=
  Reachable.dispatch ex_poll_ready_reachable
    (rfl : ex_poll_ready.cq = { user_data := Tag.heap 0, res := 1 } :: [])
    (⟨by decide, by decide⟩ : FreshAccepts ex_poll_ready []) rfl

theorem ex_read_eof_reachable : Reachable (ex_read_done 0) :=
  Reachable.complete (Reachable.submit ex_reading_reachable)
    (rfl : kernel_complete (io_uring_submit ex_reading) 1 0 [] = some (ex_read_done 0))

theorem ex_read_err_reachable : Reachable (ex_read_done (-104)) :=
  Reachable.complete (Reachable.submit ex_reading_reachable)
    (rfl : kernel_complete (io_uring_submit ex_reading) 1 (-104) [] = some (ex_read_done (-104)))

theorem ex_read_ping_reachable : Reachable ex_read_ping :=
  Reachable.complete (Reachable.submit ex_reading_reachable)
    (rfl : kernel_complete (io_uring_submit ex_reading) 1 4 ex_ping = some ex_read_ping)

theorem ex_closed_reachable : Reachable ex_closed :=
  Reachable.dispatch ex_read_err_reachable
    (rfl : (ex_read_done (-104)).cq = { user_data := Tag.heap 0, res := -104 } :: [])
    (⟨by decide, by decide⟩ : FreshAccepts (ex_read_done (-104)) []) rfl

theorem ex_writing_reachable : Reachable ex_writing :=
  Reachable.dispatch ex_read_ping_reachable
    (rfl : ex_read_ping.cq = { user_data := Tag.heap 0, res := 4, data := ex_ping } :: [])
    (⟨by decide, by decide⟩ : FreshAccepts ex_read_ping []) rfl

theorem ex_write_done_reachable (r : Int) : Reachable (ex_write_done r) :=
  Reachable.complete (Reachable.submit ex_writing_reachable)
    (rfl : kernel_complete (io_uring_submit ex_writing) 1 r [] = some (ex_write_done r))

theorem both_done_reachable {s : State} (h : Reachable s) (i : Nat) (r1 : Int) (j : Nat)
    (r2 : Int) (data : List Nat)
    (hok : ((kernel_complete s i r1 []).bind
      (fun s1 => kernel_complete s1 j r2 data)).isSome = true) :
    Reachable (both_done s i r1 j r2 data) := by
  unfold both_done
  cases h1 : kernel_complete s i r1 [] with
  | none => simp [h1] at hok
  | some s1 =>
    cases h2 : kernel_complete s1 j r2 data with
    | none => simp [h1, h2] at hok
    | some s2 =>
      simp only [h1, Option.some_bind, h2, some_or]
      exact Reachable.complete (Reachable.complete h h1) h2

theorem ok_or_spec (d : State) (x : Except Abort State) (h : x.toBool = true) :
    x = .ok (ok_or d x) := by
  cases x with
  | error e => simp [Except.toBool] at h
  | ok s => rfl

theorem after_burst_reachable {s : State} (h : Reachable s) {rest : List Cqe}
    (hcq : s.cq = { user_data := Tag.listen_data, res := 1 } :: rest)
    (hfresh : FreshAccepts s (ex_burst ++ [-1]))
    (hok : (dispatch s { user_data := Tag.listen_data, res := 1 }
      (ex_burst ++ [-1])).toBool = true) :
    Reachable (after_burst s) :=
  Reachable.dispatch h hcq hfresh (ok_or_spec s _ hok)

theorem ex_burst_fresh : (accepted (ex_burst ++ [-1])).Nodup ∧
    ∀ f ∈ accepted (ex_burst ++ [-1]), f ∉ [(3 : Int), 5] := by
  have hb : ∀ f ∈ ex_burst, f ≠ -1 ∧ (6 : Int) ≤ f := by
    intro f hf
    simp only [ex_burst, List.mem_map, List.mem_range] at hf
    obtain ⟨i, _, e⟩ := hf
    simp only [Int.ofNat_eq_coe] at e
    constructor <;> omega
  rw [accepted_append ex_burst [] (fun f hf => (hb f hf).1)]
  refine ⟨?_, ?_⟩
  · unfold ex_burst
    refine List.Nodup.map_on ?_ (List.nodup_range 63)
    intro a _ b _ hab
    simp only [Int.ofNat_eq_coe] at hab
    omega
  · intro f hf h35
    have := (hb f hf).2
    simp only [List.mem_cons, List.mem_singleton, List.not_mem_nil, or_false] at h35
    omega

theorem ex_both_poll_reachable : Reachable ex_both_poll :=
  both_done_reachable (Reachable.submit ex_accepted_reachable) 1 1 0 1 [] rfl

theorem ex_full_poll_reachable : Reachable ex_full_poll :=
  after_burst_reachable ex_both_poll_reachable
    (rfl : ex_both_poll.cq = { user_data := Tag.listen_data, res := 1 } ::
      [{ user_data := Tag.heap 0, res := 1 }])
    (ex_burst_fresh : FreshAccepts ex_both_poll (ex_burst ++ [-1])) rfl

theorem ex_both_read_reachable : Reachable ex_both_read :=
  both_done_reachable (Reachable.submit ex_reading_reachable) 0 1 0 4 ex_ping rfl

theorem ex_full_read_reachable : Reachable ex_full_read :=
  after_burst_reachable ex_both_read_reachable
    (rfl : ex_both_read.cq = { user_data := Tag.listen_data, res := 1 } ::
      [{ user_data := Tag.heap 0, res := 4, data := ex_ping }])
    (ex_burst_fresh : FreshAccepts ex_both_read (ex_burst ++ [-1])) rfl

theorem ex_both_eof_reachable : Reachable ex_both_eof :=
  both_done_reachable (Reachable.submit ex_reading_reachable) 0 1 0 0 [] rfl

theorem ex_full_eof_reachable : Reachable ex_full_eof :=
  after_burst_reachable ex_both_eof_reachable
    (rfl : ex_both_eof.cq = { user_data := Tag.listen_data, res := 1 } ::
      [{ user_data := Tag.heap 0, res := 0 }])
    (ex_burst_fresh : FreshAccepts ex_both_eof (ex_burst ++ [-1])) rfl

theorem ex_both_write_reachable : Reachable ex_both_write :=
  both_done_reachable (Reachable.submit ex_writing_reachable) 0 1 0 4 [] rfl

theorem ex_full_write_reachable : Reachable ex_full_write :=
  after_burst_reachable ex_both_write_reachable
    (rfl : ex_both_write.cq = { user_data := Tag.listen_data, res := 1 } ::
      [{ user_data := Tag.heap 0, res := 4 }])
    (ex_burst_fresh : FreshAccepts ex_both_write (ex_burst ++ [-1])) rfl

/-! ## Claims about one completion of a connection -/

theorem no_request_while_completed {s : State} (h : InvN 1 s) {c : Cqe} (hc : c ∈ s.cq)
    {p : Nat} (htag : c.user_data = Tag.heap p) :
    ∀ e ∈ s.sq ++ s.inflight, e.user_data ≠ Tag.heap p := by
  intro e he hu
  have hcnt := h.cnt_heap p
  have hle := List.nodup_iff_count_le_one.mp h.keys_nodup p
  have h1 : 0 < ((s.sq ++ s.inflight).map Sqe.user_data).count (Tag.heap p) := by
    apply List.count_pos_iff.mpr
    rw [← hu]
    exact List.mem_map_of_mem Sqe.user_data he
  have h2 : 0 < (s.cq.map Cqe.user_data).count (Tag.heap p) := by
    apply List.count_pos_iff.mpr
    rw [← htag]
    exact List.mem_map_of_mem Cqe.user_data hc
  simp only [pending, List.map_append, List.count_append] at hcnt h1
  omega

/-- C1, evaluated where the code departs from it: in the sample run the read
on descriptor 5 completes with result 0 (end of stream).  The state is
reachable, the record is in the Reading state and the completion is the oldest
unseen one; the loop body keeps the record on the heap, stores kWrite in it,
prepares a write of zero bytes, and neither shuts the socket down nor releases
the buffer. -/
theorem C1_read_zero_keeps_connection :
    Reachable (ex_read_done 0) ∧
    heap_get (ex_read_done 0).heap 0 =
      some { fd_ := 5, type_ := kRead, buf_ := { iov_base := some 1, iov_len := 4096 } } ∧
    (ex_read_done 0).cq = [{ user_data := Tag.heap 0, res := 0 }] ∧
    ∃ s1, dispatch (ex_read_done 0) { user_data := Tag.heap 0, res := 0 } [] = .ok s1 ∧
      s1.heap =
        [(0, { fd_ := 5, type_ := kWrite, buf_ := { iov_base := some 1, iov_len := 4096 } })] ∧
      s1.sq = [{ op := Op.write 5 (some 1) 0 0, user_data := Tag.heap 0 }] ∧
      s1.log.count (Effect.shutdown 5) = 0 ∧
      s1.log.count (Effect.delete_buf (some 1)) = 0 :=
  ⟨ex_read_eof_reachable, rfl, rfl, _, rfl, rfl, rfl, by decide, by decide⟩

/-- C2 fails as stated: in the sample run the poll on the listening socket and
the read of the four bytes of ping on descriptor 5 complete together, and while
the listener completion is handled 63 clients are accepted.  The state after
that is reachable, 64 requests are prepared, and the read completion of the
record in the Reading state comes next with result 4; handling it prepares no
write: io_uring_get_sqe has no slot left and the handler fails on the null
pointer. -/
theorem C2_full_ring_read_completion_fails :
    Reachable ex_full_read ∧ ex_full_read.sq.length = 64 ∧
    ex_full_read.cq = [{ user_data := Tag.heap 0, res := 4, data := ex_ping }] ∧
    heap_get ex_full_read.heap 0 =
      some { fd_ := 5, type_ := kRead, buf_ := { iov_base := some 1, iov_len := 4096 } } ∧
    dispatch ex_full_read { user_data := Tag.heap 0, res := 4, data := ex_ping } []
      = .error Abort.null_sqe :=
  ⟨ex_full_read_reachable, rfl, rfl, rfl, rfl⟩

/-- C2 as amended: in every reachable state, for a heap record in the Reading
state (type kRead) and an unseen read completion of it with a positive result
n, where the kernel stored the bytes `c.data` in the buffer.  If fewer than
URING_ENTRIES = 64 requests are prepared, the loop body marks the completion
seen and prepares exactly one request: a write on the record's descriptor,
from the base of the record's buffer, of exactly n bytes, tagged with the
record; the record gets type kWrite and keeps its descriptor and buffer, and
the memory is untouched.  If 64 requests are prepared, the handler fails on
the null sqe.  The n bytes the write sends are exactly the bytes just read,
and no request of this connection is prepared or in the kernel that could
change the buffer before the write is carried out. -/
theorem C2_read_positive_submits_write (s : State) (hs : Reachable s) (c : Cqe)
    (rets : List Int) (p : Nat) (d : QueueData) (hc : c ∈ s.cq)
    (htag : c.user_data = Tag.heap p) (hget : heap_get s.heap p = some d)
    (hty : d.type_ = kRead) (hpos : 0 < c.res) :
    (s.sq.length < URING_ENTRIES →
      dispatch s c rets = .ok
        { s with cq := s.cq.drop 1,
                 sq := s.sq ++ [{ op := Op.write d.fd_ d.buf_.iov_base c.res.toNat 0,
                                  user_data := Tag.heap p }],
                 heap := heap_set_type s.heap p kWrite,
                 log := s.log ++ [Effect.cqe_seen c,
                   Effect.prep { op := Op.write d.fd_ d.buf_.iov_base c.res.toNat 0,
                                 user_data := Tag.heap p }] }) ∧
    (¬ s.sq.length < URING_ENTRIES → dispatch s c rets = .error Abort.null_sqe) ∧
    heap_get (heap_set_type s.heap p kWrite) p =
      some { fd_ := d.fd_, type_ := kWrite, buf_ := d.buf_ } ∧
    (c.data.length : Int) = c.res ∧
    payload s.mem (Op.write d.fd_ d.buf_.iov_base c.res.toNat 0) = c.data ∧
    (∀ e ∈ s.sq ++ s.inflight, e.user_data ≠ Tag.heap p) := by
  obtain ⟨hlen, hcap, hmem⟩ := hs.inv.read_ok c hc p d htag hget hty hpos
  have hbuf := (heap_type_facts hs.inv hget).2
  have h32 : c.res ≤ 2147483647 := by
    have : MAX_LENGTH = 4096 := rfl
    omega
  have hnat : c.res.toNat = c.data.length := by omega
  have heq := dispatch_read_nonneg s c rets p d htag hget hty (le_of_lt hpos)
  rw [to_unsigned_of_int32 (le_of_lt hpos) h32] at heq
  refine ⟨?_, ?_, heap_get_set_type_self kWrite hget, hlen, ?_,
    no_request_while_completed hs.inv hc htag⟩
  · intro hroom
    rw [heq]
    simp only [hroom, if_true]
    rfl
  · intro hroom
    rw [heq]
    simp only [hroom, if_false]
  · rw [hbuf, hnat]
    exact hmem

/-- C2 as amended, at the sample run: the four bytes of ping were read on
descriptor 5 and are what the prepared write sends. -/
theorem C2_read_positive_submits_write_witness :
    (Reachable ex_read_ping ∧
      ({ user_data := Tag.heap 0, res := 4, data := ex_ping } : Cqe) ∈ ex_read_ping.cq ∧
      (0 : Int) < 4 ∧ ex_read_ping.sq.length < URING_ENTRIES) ∧
    dispatch ex_read_ping { user_data := Tag.heap 0, res := 4, data := ex_ping } [] = .ok
      { ex_read_ping with
          cq := [],
          sq := [{ op := Op.write 5 (some 1) 4 0, user_data := Tag.heap 0 }],
          heap := [(0, { fd_ := 5, type_ := kWrite,
                         buf_ := { iov_base := some 1, iov_len := 4096 } })],
          log := ex_read_ping.log ++
            [Effect.cqe_seen { user_data := Tag.heap 0, res := 4, data := ex_ping },
             Effect.prep { op := Op.write 5 (some 1) 4 0, user_data := Tag.heap 0 }] } ∧
    payload ex_read_ping.mem (Op.write 5 (some 1) 4 0) = [112, 105, 110, 103] :=
  ⟨⟨ex_read_ping_reachable, by decide, by decide, by decide⟩,
   (C2_read_positive_submits_write ex_read_ping ex_read_ping_reachable
      { user_data := Tag.heap 0, res := 4, data := ex_ping } [] 0
      { fd_ := 5, type_ := kRead, buf_ := { iov_base := some 1, iov_len := 4096 } }
      (by decide) rfl rfl rfl (by decide)).1 (by decide),
   (C2_read_positive_submits_write ex_read_ping ex_read_ping_reachable
      { user_data := Tag.heap 0, res := 4, data := ex_ping } [] 0
      { fd_ := 5, type_ := kRead, buf_ := { iov_base := some 1, iov_len := 4096 } }
      (by decide) rfl rfl rfl (by decide)).2.2.2.2.1⟩

/-- C3 fails as stated: in the sample run the poll on the listening socket and
the write on descriptor 5 complete together, and while the listener completion
is handled 63 clients are accepted.  The state after that is reachable, 64
requests are prepared, and the write completion of the record in the Writing
state comes next; handling it prepares no poll and does not store kPollin:
the handler fails on the null sqe. -/
theorem C3_full_ring_write_completion_fails :
    Reachable ex_full_write ∧ ex_full_write.sq.length = 64 ∧
    ex_full_write.cq = [{ user_data := Tag.heap 0, res := 4 }] ∧
    heap_get ex_full_write.heap 0 =
      some { fd_ := 5, type_ := kWrite, buf_ := { iov_base := some 1, iov_len := 4096 } } ∧
    dispatch ex_full_write { user_data := Tag.heap 0, res := 4 } [] = .error Abort.null_sqe :=
  ⟨ex_full_write_reachable, rfl, rfl, rfl, rfl⟩

/-- C3 as amended: for a heap record in the Writing state (type kWrite) and a
write completion with any result.  If fewer than URING_ENTRIES = 64 requests
are prepared, the loop body marks the completion seen and prepares exactly one
request, a poll for readability on the record's descriptor tagged with the
record; the record gets type kPollin and keeps its descriptor and buffer, it
stays on the heap, the descriptor table is unchanged and nothing but the two
calls is logged (no shutdown, no release).  If 64 requests are prepared, the
handler fails on the null sqe. -/
theorem C3_write_completion_rearms_poll (s : State) (c : Cqe) (rets : List Int) (p : Nat)
    (d : QueueData) (htag : c.user_data = Tag.heap p) (hget : heap_get s.heap p = some d)
    (hty : d.type_ = kWrite) :
    (s.sq.length < URING_ENTRIES →
      dispatch s c rets = .ok
        { s with cq := s.cq.drop 1,
                 sq := s.sq ++ [{ op := Op.poll_add d.fd_ POLL_IN, user_data := Tag.heap p }],
                 heap := heap_set_type s.heap p kPollin,
                 log := s.log ++ [Effect.cqe_seen c,
                   Effect.prep { op := Op.poll_add d.fd_ POLL_IN,
                                 user_data := Tag.heap p }] }) ∧
    (¬ s.sq.length < URING_ENTRIES → dispatch s c rets = .error Abort.null_sqe) ∧
    heap_get (heap_set_type s.heap p kPollin) p =
      some { fd_ := d.fd_, type_ := kPollin, buf_ := d.buf_ } := by
  have heq := dispatch_write s c rets p d htag hget hty
  refine ⟨?_, ?_, heap_get_set_type_self kPollin hget⟩
  · intro hroom
    rw [heq]
    simp only [hroom, if_true]
    rfl
  · intro hroom
    rw [heq]
    simp only [hroom, if_false]

/-- C3 as amended, at the sample run: the write on descriptor 5 failed with -32. -/
theorem C3_write_completion_rearms_poll_witness :
    (ex_write_done (-32)).sq.length < URING_ENTRIES ∧
    dispatch (ex_write_done (-32)) { user_data := Tag.heap 0, res := -32 } [] = .ok
      { ex_write_done (-32) with
          cq := [],
          sq := [{ op := Op.poll_add 5 POLL_IN, user_data := Tag.heap 0 }],
          heap := [(0, { fd_ := 5, type_ := kPollin,
                         buf_ := { iov_base := some 1, iov_len := 4096 } })],
          log := (ex_write_done (-32)).log ++
            [Effect.cqe_seen { user_data := Tag.heap 0, res := -32 },
             Effect.prep { op := Op.poll_add 5 POLL_IN, user_data := Tag.heap 0 }] } ∧
    (ex_write_done (-32)).fds = [3, 5] :=
  ⟨by decide,
   (C3_write_completion_rearms_poll (ex_write_done (-32))
      { user_data := Tag.heap 0, res := -32 } [] 0
      { fd_ := 5, type_ := kWrite, buf_ := { iov_base := some 1, iov_len := 4096 } }
      rfl rfl rfl).1 (by decide), rfl⟩

/-- C4 fails as stated: in the sample run the polls on the listening socket
and on descriptor 5 complete together, and while the listener completion is
handled 63 clients are accepted.  The state after that is reachable, 64
requests are prepared, and the readiness completion of the record in the
AwaitingReadable state comes next with result 1; handling it prepares no read:
the handler fails on the null sqe. -/
theorem C4_full_ring_poll_completion_fails :
    Reachable ex_full_poll ∧ ex_full_poll.sq.length = 64 ∧
    ex_full_poll.cq = [{ user_data := Tag.heap 0, res := 1 }] ∧
    heap_get ex_full_poll.heap 0 =
      some { fd_ := 5, type_ := kPollin, buf_ := { iov_base := some 1, iov_len := 4096 } } ∧
    dispatch ex_full_poll { user_data := Tag.heap 0, res := 1 } [] = .error Abort.null_sqe :=
  ⟨ex_full_poll_reachable, rfl, rfl, rfl, rfl⟩

/-- C4 as amended: in every reachable state, for a heap record in the
AwaitingReadable state (type kPollin) and a readiness completion with any
result (the arm does not look at it, so in particular with a result of at
least 0).  If fewer than URING_ENTRIES = 64 requests are prepared, the loop
body marks the completion seen and prepares exactly one request: a readv on
the record's descriptor with one iovec, the record's buffer, at offset 0; the
record gets type kRead and keeps its descriptor and buffer.  If 64 requests
are prepared, the handler fails on the null sqe.  The buffer is the one
allocated right behind the record when it was accepted (base p + 1) and its
length is MAX_LENGTH = 4096. -/
theorem C4_poll_completion_submits_read (s : State) (hs : Reachable s) (c : Cqe)
    (rets : List Int) (p : Nat) (d : QueueData) (htag : c.user_data = Tag.heap p)
    (hget : heap_get s.heap p = some d) (hty : d.type_ = kPollin) :
    (s.sq.length < URING_ENTRIES →
      dispatch s c rets = .ok
        { s with cq := s.cq.drop 1,
                 sq := s.sq ++ [{ op := Op.readv d.fd_
                                    { iov_base := some (p + 1), iov_len := 4096 } 1 0,
                                  user_data := Tag.heap p }],
                 heap := heap_set_type s.heap p kRead,
                 log := s.log ++ [Effect.cqe_seen c,
                   Effect.prep { op := Op.readv d.fd_
                                   { iov_base := some (p + 1), iov_len := 4096 } 1 0,
                                 user_data := Tag.heap p }] }) ∧
    (¬ s.sq.length < URING_ENTRIES → dispatch s c rets = .error Abort.null_sqe) ∧
    d.buf_ = { iov_base := some (p + 1), iov_len := 4096 } ∧
    MAX_LENGTH = 4096 ∧
    heap_get (heap_set_type s.heap p kRead) p =
      some { fd_ := d.fd_, type_ := kRead, buf_ := d.buf_ } := by
  have hbuf : d.buf_ = { iov_base := some (p + 1), iov_len := 4096 } :=
    (heap_type_facts hs.inv hget).2
  have heq := dispatch_pollin s c rets p d htag hget hty
  rw [hbuf] at heq
  refine ⟨?_, ?_, hbuf, rfl, heap_get_set_type_self kRead hget⟩
  · intro hroom
    rw [heq]
    simp only [hroom, if_true]
    rfl
  · intro hroom
    rw [heq]
    simp only [hroom, if_false]

/-- C4 as amended, at the sample run: descriptor 5 became readable. -/
theorem C4_poll_completion_submits_read_witness :
    (Reachable ex_poll_ready ∧ ex_poll_ready.sq.length < URING_ENTRIES) ∧
    dispatch ex_poll_ready { user_data := Tag.heap 0, res := 1 } [] = .ok
      { ex_poll_ready with
          cq := [],
          sq := [{ op := Op.readv 5 { iov_base := some 1, iov_len := 4096 } 1 0,
                   user_data := Tag.heap 0 }],
          heap := [(0, { fd_ := 5, type_ := kRead,
                         buf_ := { iov_base := some 1, iov_len := 4096 } })],
          log := ex_poll_ready.log ++
            [Effect.cqe_seen { user_data := Tag.heap 0, res := 1 },
             Effect.prep { op := Op.readv 5 { iov_base := some 1, iov_len := 4096 } 1 0,
                           user_data := Tag.heap 0 }] } :=
  ⟨⟨ex_poll_ready_reachable, by decide⟩,
   (C4_poll_completion_submits_read ex_poll_ready ex_poll_ready_reachable
      { user_data := Tag.heap 0, res := 1 } [] 0
      { fd_ := 5, type_ := kPollin, buf_ := { iov_base := some 1, iov_len := 4096 } }
      rfl rfl rfl).1 (by decide)⟩

/-! ## The listener arm -/

/-- C5 fails as stated: at the start of the sample run the first poll on the
listening socket has completed, nothing is prepared, and accept4 returns the
64 descriptors 5 .. 68 before it returns -1.  The loop body does not end with
65 requests: the 64 polls of the clients fill the ring, io_uring_get_sqe has no
slot for the poll of the listening socket and the handler fails on the null
pointer. -/
theorem C5_sixty_four_accepts_fail :
    Reachable ex_listen_ready ∧ ex_listen_ready.sq.length = 0 ∧
    (5 :: ex_burst).length = 64 ∧
    dispatch ex_listen_ready { user_data := Tag.listen_data, res := 1 }
      ((5 :: ex_burst) ++ [-1]) = .error Abort.null_sqe :=
  ⟨ex_listen_ready_reachable, rfl, rfl, rfl⟩

/-- C5 as amended: in every reachable state, when a completion tagged with the
listener record is handled and accept4 returns the descriptors fs (none of
them -1) and then -1.  If the requests already prepared and the fs.length + 1
new ones fit into the URING_ENTRIES = 64 slots of the ring, the loop body
marks the completion seen, appends one heap record per descriptor, in accept
order, each of type kPollin with its own new buffer of 4096 bytes placed right
behind the record, adds the descriptors to the descriptor table, prepares one
poll per descriptor in accept order, each tagged with its record, and last
prepares one poll for the listening socket tagged with the listener record:
fs.length + 1 requests in all, also for fs = [].  If they do not fit, the
handler fails on the null sqe.  The new records and buffers lie at addresses
from next_ptr on, which no existing record or buffer occupies. -/
theorem C5_listener_completion_accepts_all (s : State) (hs : Reachable s) (c : Cqe)
    (fs rest : List Int) (htag : c.user_data = Tag.listen_data) (hfs : ∀ f ∈ fs, f ≠ -1) :
    (s.sq.length + fs.length + 1 ≤ URING_ENTRIES →
      dispatch s c (fs ++ -1 :: rest) = .ok
        { s with
            cq := s.cq.drop 1,
            heap := s.heap ++ new_records s.next_ptr fs,
            next_ptr := s.next_ptr + 2 * fs.length,
            fds := s.fds ++ fs,
            sq := s.sq ++ new_polls s.next_ptr fs ++
              [{ op := Op.poll_add s.server_sock POLL_IN, user_data := Tag.listen_data }],
            log := s.log ++ Effect.cqe_seen c :: accept_log s.server_sock s.next_ptr fs ++
              [Effect.accept4 s.server_sock (-1),
               Effect.prep { op := Op.poll_add s.server_sock POLL_IN,
                             user_data := Tag.listen_data }] }) ∧
    (¬ s.sq.length + fs.length + 1 ≤ URING_ENTRIES →
      dispatch s c (fs ++ -1 :: rest) = .error Abort.null_sqe) ∧
    (new_records s.next_ptr fs).map (fun x => x.2.fd_) = fs ∧
    (∀ x ∈ new_records s.next_ptr fs,
      x.2.type_ = kPollin ∧ x.2.buf_ = { iov_base := some (x.1 + 1), iov_len := 4096 } ∧
      ∀ y ∈ s.heap, y.1 ≠ x.1 ∧ y.2.buf_.iov_base ≠ x.2.buf_.iov_base) ∧
    ((new_records s.next_ptr fs).map Prod.fst).Nodup ∧
    new_polls s.next_ptr fs = (new_records s.next_ptr fs).map
      (fun x => ({ op := Op.poll_add x.2.fd_ POLL_IN, user_data := Tag.heap x.1 } : Sqe)) ∧
    (new_polls s.next_ptr fs ++
      [({ op := Op.poll_add s.server_sock POLL_IN, user_data := Tag.listen_data } : Sqe)]).length
        = fs.length + 1 := by
  have heq := dispatch_listen_closed s c fs rest htag hs.inv.listen_type hfs hs.sq_le
  rw [hs.inv.listen_fd] at heq
  refine ⟨?_, ?_, new_records_fds _ _, ?_, new_records_keys_nodup _ _, new_polls_eq _ _, ?_⟩
  · intro hroom
    have hlt : s.sq.length + fs.length < URING_ENTRIES := by omega
    rw [heq]
    simp only [hlt, if_true]
  · intro hroom
    have hlt : ¬ s.sq.length + fs.length < URING_ENTRIES := by omega
    rw [heq]
    simp only [hlt, if_false]
  · intro x hx
    obtain ⟨h1, h2, h3⟩ := new_records_mem hx
    refine ⟨h1, h2, ?_⟩
    intro y hy
    have hlt := hs.inv.keys_lt y hy
    have hbuf := (hs.inv.rec_ok y hy).2
    refine ⟨by omega, ?_⟩
    rw [hbuf, h2]
    simp only [ne_eq, Option.some.injEq]
    omega
  · simp [new_polls_length]

/-- C5 as amended, at the start of the sample run: two clients are waiting
when the first poll on the listening socket completes. -/
theorem C5_listener_completion_accepts_all_witness :
    (Reachable ex_listen_ready ∧ (∀ f ∈ [(5 : Int), 6], f ≠ -1) ∧
      ex_listen_ready.sq.length + [(5 : Int), 6].length + 1 ≤ URING_ENTRIES) ∧
    dispatch ex_listen_ready { user_data := Tag.listen_data, res := 1 } [5, 6, -1] = .ok
      { ex_listen_ready with
          cq := [],
          heap := [(0, { fd_ := 5, type_ := kPollin,
                         buf_ := { iov_base := some 1, iov_len := 4096 } }),
                   (2, { fd_ := 6, type_ := kPollin,
                         buf_ := { iov_base := some 3, iov_len := 4096 } })],
          next_ptr := 4,
          fds := [3, 5, 6],
          sq := [{ op := Op.poll_add 5 POLL_IN, user_data := Tag.heap 0 },
                 { op := Op.poll_add 6 POLL_IN, user_data := Tag.heap 2 },
                 { op := Op.poll_add 3 POLL_IN, user_data := Tag.listen_data }],
          log := [Effect.cqe_seen { user_data := Tag.listen_data, res := 1 },
                  Effect.accept4 3 5,
                  Effect.prep { op := Op.poll_add 5 POLL_IN, user_data := Tag.heap 0 },
                  Effect.accept4 3 6,
                  Effect.prep { op := Op.poll_add 6 POLL_IN, user_data := Tag.heap 2 },
                  Effect.accept4 3 (-1),
                  Effect.prep { op := Op.poll_add 3 POLL_IN, user_data := Tag.listen_data }] } :=
  ⟨⟨ex_listen_ready_reachable, by decide, by decide⟩,
   (C5_listener_completion_accepts_all ex_listen_ready ex_listen_ready_reachable
      { user_data := Tag.listen_data, res := 1 } [5, 6] [] rfl (by decide)).1 (by decide)⟩

/-! ## Accepted descriptors stay open -/

theorem accept_loop_accepted_open {s s1 : State} {listen_fd : Int} {rets : List Int}
    (h : AcceptedOpen s) (ha : accept_loop s listen_fd rets = .ok s1) : AcceptedOpen s1 := by
  induction rets generalizing s with
  | nil => simp [accept_loop] at ha
  | cons r rs ih =>
    by_cases hr : r = -1
    · simp only [accept_loop, hr, if_true, Except.ok.injEq] at ha
      subst ha
      intro l f hm hf
      simp only [List.mem_append, List.mem_singleton, Effect.accept4.injEq] at hm
      rcases hm with hm | hm
      · exact h l f hm hf
      · exact absurd hm.2 hf
    · obtain ⟨_, ha⟩ := accept_loop_cons_ok hr ha
      refine ih ?_ ha
      intro l f hm hf
      simp only [accept_one, push_sqe, List.mem_append, List.mem_singleton, Effect.accept4.injEq,
        reduceCtorEq, or_false] at hm ⊢
      rcases hm with hm | hm
      · exact Or.inl (h l f hm hf)
      · exact Or.inr hm.2

theorem dispatch_accepted_open {s s1 : State} (h : InvN 1 s) {c : Cqe} {rest : List Cqe}
    (hcq : s.cq = c :: rest) {rets : List Int} (hd : dispatch s c rets = .ok s1)
    (ho : AcceptedOpen s) : AcceptedOpen s1 := by
  cases htag : c.user_data with
  | listen_data =>
    rw [dispatch_listen s c rets htag h.listen_type] at hd
    cases hacc : accept_loop (io_uring_cqe_seen s c) s.listen_data.fd_ rets with
    | error e => simp [hacc] at hd
    | ok s2 =>
      simp only [hacc, prep] at hd
      obtain ⟨_, hd⟩ := ok_of_room hd
      subst hd
      have h0 : AcceptedOpen (io_uring_cqe_seen s c) := by
        intro l f hm hf
        simp only [io_uring_cqe_seen, List.mem_append, List.mem_singleton, reduceCtorEq,
          or_false] at hm
        exact ho l f hm hf
      have h2 := accept_loop_accepted_open h0 hacc
      intro l f hm hf
      simp only [push_sqe, List.mem_append, List.mem_singleton, reduceCtorEq, or_false] at hm
      exact h2 l f hm hf
  | heap p =>
    obtain ⟨⟨d, hget⟩, _⟩ := head_tag_facts h hcq htag
    have hcyc : ∀ t op, AcceptedOpen (cycle_state s c p t op) := by
      intro t op l f hm hf
      simp only [cycle_state, List.mem_append, List.mem_cons, List.mem_singleton,
        reduceCtorEq, or_false, List.not_mem_nil] at hm
      exact ho l f hm hf
    rcases (heap_type_facts h hget).1 with hty | hty | hty
    · rw [dispatch_pollin s c rets p d htag hget hty] at hd
      obtain ⟨_, hd⟩ := ok_of_room hd
      subst hd
      exact hcyc _ _
    · by_cases hres : c.res < 0
      · rw [dispatch_read_neg s c rets p d htag hget hty hres] at hd
        simp only [Except.ok.injEq] at hd
        subst hd
        intro l f hm hf
        simp only [closed_state, List.mem_append, List.mem_cons, List.mem_singleton,
          reduceCtorEq, or_false, List.not_mem_nil] at hm
        exact ho l f hm hf
      · rw [dispatch_read_nonneg s c rets p d htag hget hty (not_lt.mp hres)] at hd
        obtain ⟨_, hd⟩ := ok_of_room hd
        subst hd
        exact hcyc _ _
    · rw [dispatch_write s c rets p d htag hget hty] at hd
      obtain ⟨_, hd⟩ := ok_of_room hd
      subst hd
      exact hcyc _ _

theorem Reachable.accepted_open {s : State} (h : Reachable s) : AcceptedOpen s := by
  induction h with
  | startup server_sock =>
    intro l f hm _
    exact absurd hm (List.not_mem_nil _)
  | submit _ ih => exact ih
  | @complete s s1 i res data _ hc ih =>
    unfold kernel_complete at hc
    cases hg : s.inflight[i]? with
    | none => simp [hg] at hc
    | some e =>
      simp only [hg] at hc
      by_cases hv : valid_completion e.op res data = true
      · simp only [hv, if_true, Option.some.injEq] at hc
        subst hc
        exact ih
      · simp [hv] at hc
  | dispatch hr hcq _ hd ih => exact dispatch_accepted_open hr.inv hcq hd ih

/-! ## Claims about runs -/

theorem dispatch_conn {s : State} (h : InvN 1 s) {c : Cqe} {rest : List Cqe}
    (hcq : s.cq = c :: rest) (rets : List Int) {p : Nat} (htag : c.user_data = Tag.heap p) :
    (∃ s1, dispatch s c rets = .ok s1 ∧ heap_get s1.heap p = none ∧ s1.sq = s.sq) ∨
    (s.sq.length < URING_ENTRIES ∧
      ∃ s1 e d1, dispatch s c rets = .ok s1 ∧ s1.sq = s.sq ++ [e] ∧
        e.user_data = Tag.heap p ∧ heap_get s1.heap p = some d1 ∧ e.op.fd = d1.fd_) ∨
    (¬ s.sq.length < URING_ENTRIES ∧ dispatch s c rets = .error Abort.null_sqe) := by
  obtain ⟨⟨d, hget⟩, _⟩ := head_tag_facts h hcq htag
  have hcyc : ∀ t op, op.fd = d.fd_ →
      dispatch s c rets = (if s.sq.length < URING_ENTRIES then .ok (cycle_state s c p t op)
        else .error Abort.null_sqe) →
      (s.sq.length < URING_ENTRIES ∧
        ∃ s1 e d1, dispatch s c rets = .ok s1 ∧ s1.sq = s.sq ++ [e] ∧
          e.user_data = Tag.heap p ∧ heap_get s1.heap p = some d1 ∧ e.op.fd = d1.fd_) ∨
      (¬ s.sq.length < URING_ENTRIES ∧ dispatch s c rets = .error Abort.null_sqe) := by
    intro t op hop heq
    by_cases hroom : s.sq.length < URING_ENTRIES
    · left
      simp only [hroom, if_true] at heq
      exact ⟨hroom, _, _, _, heq, rfl, rfl, heap_get_set_type_self t hget, hop⟩
    · right
      simp only [hroom, if_false] at heq
      exact ⟨hroom, heq⟩
  rcases (heap_type_facts h hget).1 with hty | hty | hty
  · exact Or.inr (hcyc kRead (Op.readv d.fd_ d.buf_ 1 0) rfl
      (dispatch_pollin s c rets p d htag hget hty))
  · by_cases hres : c.res < 0
    · exact Or.inl ⟨_, dispatch_read_neg s c rets p d htag hget hty hres,
        heap_get_del_self _ _, rfl⟩
    · exact Or.inr (hcyc kWrite (Op.write d.fd_ d.buf_.iov_base (to_unsigned c.res) 0) rfl
        (dispatch_read_nonneg s c rets p d htag hget hty (not_lt.mp hres)))
  · exact Or.inr (hcyc kPollin (Op.poll_add d.fd_ POLL_IN) rfl
      (dispatch_write s c rets p d htag hget hty))

/-- C6 fails as stated: in the sample run the poll on the listening socket and
the read on descriptor 5 complete together, the read at end of stream, and
while the listener completion is handled 63 clients are accepted.  The state
after that is reachable, the record of descriptor 5 is live and 64 requests
are prepared; handling its completion neither closes the connection nor yields
a next submission: the handler fails on the null sqe. -/
theorem C6_full_ring_yields_no_submission :
    Reachable ex_full_eof ∧ ex_full_eof.sq.length = 64 ∧
    ex_full_eof.cq = [{ user_data := Tag.heap 0, res := 0 }] ∧
    heap_get ex_full_eof.heap 0 =
      some { fd_ := 5, type_ := kRead, buf_ := { iov_base := some 1, iov_len := 4096 } } ∧
    dispatch ex_full_eof { user_data := Tag.heap 0, res := 0 } [] = .error Abort.null_sqe :=
  ⟨ex_full_eof_reachable, rfl, rfl, rfl, rfl⟩

/-- C6 as amended: in every reachable state, where a request counts as
outstanding from the moment it is prepared until its completion is marked
seen: every live connection record has exactly one outstanding request and a
deleted one has none; every request that is prepared or in the kernel and
tagged with a connection record targets that record's descriptor with the
operation of the record's state (poll for kPollin, readv into the record's
buffer for kRead, write from the record's buffer for kWrite); no two requests
that are prepared or in the kernel target the same descriptor; and handling
the oldest completion of a connection either deletes the record and prepares
nothing, or, with fewer than URING_ENTRIES = 64 requests prepared, keeps it
and prepares exactly one request, tagged with the record and on its
descriptor, or, with 64 requests prepared, fails on the null sqe. -/
theorem C6_one_outstanding_operation (s : State) (hs : Reachable s) :
    (∀ p d, heap_get s.heap p = some d → (pending s).count (Tag.heap p) = 1) ∧
    (∀ p, heap_get s.heap p = none → (pending s).count (Tag.heap p) = 0) ∧
    (∀ e ∈ s.sq ++ s.inflight, ∀ p, e.user_data = Tag.heap p →
      ∃ d, heap_get s.heap p = some d ∧
        ((d.type_ = kPollin ∧ e.op = Op.poll_add d.fd_ POLL_IN) ∨
         (d.type_ = kRead ∧ e.op = Op.readv d.fd_ d.buf_ 1 0) ∨
         (d.type_ = kWrite ∧ ∃ n, e.op = Op.write d.fd_ d.buf_.iov_base n 0))) ∧
    ((s.sq ++ s.inflight).map (fun e => e.op.fd)).Nodup ∧
    (∀ c rest rets p, s.cq = c :: rest → c.user_data = Tag.heap p →
      (∃ s1, dispatch s c rets = .ok s1 ∧ heap_get s1.heap p = none ∧ s1.sq = s.sq) ∨
      (s.sq.length < URING_ENTRIES ∧
        ∃ s1 e d1, dispatch s c rets = .ok s1 ∧ s1.sq = s.sq ++ [e] ∧
          e.user_data = Tag.heap p ∧ heap_get s1.heap p = some d1 ∧ e.op.fd = d1.fd_) ∨
      (¬ s.sq.length < URING_ENTRIES ∧ dispatch s c rets = .error Abort.null_sqe)) := by
  refine ⟨?_, ?_, ?_, hs.queued_fds_nodup, ?_⟩
  · intro p d hd
    rw [hs.inv.cnt_heap p]
    have hle := List.nodup_iff_count_le_one.mp hs.inv.keys_nodup p
    have hmem : p ∈ s.heap.map Prod.fst := List.mem_map_of_mem Prod.fst (heap_get_mem hd)
    have := List.count_pos_iff.mpr hmem
    omega
  · intro p hp
    rw [hs.inv.cnt_heap p]
    exact List.count_eq_zero_of_not_mem ((heap_get_none_iff _ _).mp hp)
  · intro e he p hp
    have := hs.inv.sqe_ok e he
    unfold SqeOk at this
    simpa only [hp] using this
  · intro c rest rets p hcq htag
    exact dispatch_conn hs.inv hcq rets htag

/-- C6 as amended, at the sample run, while the read on descriptor 5 is in the
kernel. -/
theorem C6_one_outstanding_operation_witness :
    Reachable (io_uring_submit ex_reading) ∧
    (pending (io_uring_submit ex_reading)).count (Tag.heap 0) = 1 ∧
    (((io_uring_submit ex_reading).sq ++ (io_uring_submit ex_reading).inflight).map
      (fun e => e.op.fd)).Nodup :=
  ⟨Reachable.submit ex_reading_reachable,
   (C6_one_outstanding_operation _ (Reachable.submit ex_reading_reachable)).1 0
     { fd_ := 5, type_ := kRead, buf_ := { iov_base := some 1, iov_len := 4096 } } rfl,
   (C6_one_outstanding_operation _ (Reachable.submit ex_reading_reachable)).2.2.2.1⟩

/-- C7 fails as stated: in the sample run the read on descriptor 5 fails with
-104.  The loop body deletes the record (the connection is Closed), shuts the
socket down once and releases the buffer once, but descriptor 5 is still in
the descriptor table afterwards: it has been closed zero times. -/
theorem C7_teardown_leaves_descriptor_open :
    Reachable (ex_read_done (-104)) ∧
    ∃ s1, dispatch (ex_read_done (-104)) { user_data := Tag.heap 0, res := -104 } [] = .ok s1 ∧
      s1.heap = [] ∧
      s1.log.count (Effect.shutdown 5) = 1 ∧
      s1.log.count (Effect.delete_buf (some 1)) = 1 ∧
      s1.fds = [3, 5] :=
  ⟨ex_read_err_reachable, _, rfl, rfl, by decide, by decide, rfl⟩

/-- C7 as amended: in every reachable state, handling a negative read result
for a record in the Reading state deletes the record, shuts its socket down
and releases its buffer, and leaves the descriptor table as it is, so the
descriptor stays open.  Over the run, every descriptor in the table other than
the listening socket either belongs to exactly one live record and has not
been shut down, or belongs to no live record and has been shut down exactly
once; nothing outside the table and not the listening socket has been shut
down; and every descriptor accept4 has returned is still in the table. -/
theorem C7_teardown_shuts_down_once_never_closes (s : State) (hs : Reachable s) :
    (∀ c rest rets p d, s.cq = c :: rest → c.user_data = Tag.heap p →
      heap_get s.heap p = some d → d.type_ = kRead → c.res < 0 →
      dispatch s c rets = .ok
        { s with cq := rest,
                 heap := heap_del s.heap p,
                 log := s.log ++ [Effect.cqe_seen c, Effect.shutdown d.fd_,
                                  Effect.delete_buf d.buf_.iov_base] } ∧
      heap_get (heap_del s.heap p) p = none ∧ d.fd_ ∈ s.fds) ∧
    (∀ fd ∈ s.fds, fd ≠ s.server_sock →
      s.log.count (Effect.shutdown fd) + (s.heap.map (fun x => x.2.fd_)).count fd = 1) ∧
    (∀ fd, fd ∉ s.fds ∨ fd = s.server_sock → s.log.count (Effect.shutdown fd) = 0) ∧
    (∀ listen_fd f, Effect.accept4 listen_fd f ∈ s.log → f ≠ -1 → f ∈ s.fds) := by
  refine ⟨?_, ?_, ?_, hs.accepted_open⟩
  · intro c rest rets p d hcq htag hget hty hres
    refine ⟨?_, heap_get_del_self _ _, (hs.heap_fd (heap_get_mem hget)).2.1⟩
    rw [dispatch_read_neg s c rets p d htag hget hty hres]
    simp [closed_state, hcq]
  · intro fd hfd hne
    have h1 := hs.inv.fd_cnt fd
    have h2 := List.count_pos_iff.mpr hfd
    have h3 := List.nodup_iff_count_le_one.mp hs.fds_nodup fd
    simp only [hne, if_false] at h1
    omega
  · intro fd hfd
    have h1 := hs.inv.fd_cnt fd
    rcases hfd with hfd | hfd
    · have := List.count_eq_zero_of_not_mem hfd
      omega
    · subst hfd
      have h3 := List.nodup_iff_count_le_one.mp hs.fds_nodup s.server_sock
      simp only [if_true] at h1
      omega

/-- C7 as amended, at the sample run after the failed read was handled. -/
theorem C7_teardown_shuts_down_once_never_closes_witness :
    Reachable ex_closed ∧
    ex_closed.log.count (Effect.shutdown 5)
      + (ex_closed.heap.map (fun x => x.2.fd_)).count 5 = 1 ∧
    ex_closed.heap = [] ∧ (5 : Int) ∈ ex_closed.fds :=
  ⟨ex_closed_reachable,
   (C7_teardown_shuts_down_once_never_closes ex_closed ex_closed_reachable).2.1 5
      (by decide) (by decide),
   rfl, by decide⟩

/-- C10: in every reachable state (the states at the head of the loop are
among them, see loop_head_reachable), the stack record has type kListen and
holds the listening socket; every heap record has one of the types kPollin,
kRead, kWrite and never kListen; exactly one request tagged with the stack
record is prepared, in the kernel, or completed and not yet marked seen; the
requests that are prepared or in the kernel and tagged with the stack record
are polls for readability of the listening socket, and they are the only ones
that target it.  Handling the oldest completion never ends in the default arm,
never deletes the stack record and never meets a dangling tag: with a -1 among
the accept4 results and room in the ring for the requests it prepares it
reaches break, and a completion tagged with the stack record is handled by the
kListen arm. -/
theorem C10_listener_record_is_stable (s : State) (hs : Reachable s) :
    s.listen_data.type_ = kListen ∧ s.listen_data.fd_ = s.server_sock ∧
    (∀ x ∈ s.heap, x.2.type_ ≠ kListen ∧
      (x.2.type_ = kPollin ∨ x.2.type_ = kRead ∨ x.2.type_ = kWrite)) ∧
    (pending s).count Tag.listen_data = 1 ∧
    (∀ e ∈ s.sq ++ s.inflight,
      (e.user_data = Tag.listen_data → e.op = Op.poll_add s.server_sock POLL_IN) ∧
      (e.op.fd = s.server_sock → e.user_data = Tag.listen_data)) ∧
    (∀ c rest rets, s.cq = c :: rest →
      dispatch s c rets ≠ .error Abort.assert_false ∧
      dispatch s c rets ≠ .error Abort.delete_of_stack_record ∧
      dispatch s c rets ≠ .error Abort.dangling_tag ∧
      ((-1 : Int) ∈ rets → s.sq.length + requests_of (c, rets) ≤ URING_ENTRIES →
        ∃ s1, dispatch s c rets = .ok s1) ∧
      (c.user_data = Tag.listen_data →
        dispatch s c rets =
          match accept_loop (io_uring_cqe_seen s c) s.server_sock rets with
          | .error e => .error e
          | .ok s2 =>
            prep s2 { op := Op.poll_add s2.server_sock POLL_IN,
                      user_data := Tag.listen_data })) := by
  refine ⟨hs.inv.listen_type, hs.inv.listen_fd, ?_, hs.inv.cnt_listen, ?_, ?_⟩
  · intro x hx
    have h1 := (hs.inv.rec_ok x hx).1
    refine ⟨?_, h1⟩
    rcases h1 with h1 | h1 | h1 <;> rw [h1] <;> decide
  · intro e he
    have hok := hs.inv.sqe_ok e he
    have hfd := sqe_fd hok
    refine ⟨?_, ?_⟩
    · intro hu
      unfold SqeOk at hok
      simpa only [hu] using hok
    · intro hsrv
      cases hu : e.user_data with
      | listen_data => rfl
      | heap p =>
        simp only [hu] at hfd
        obtain ⟨d, hd, e1⟩ := hfd
        exact absurd (e1.symm.trans hsrv) (hs.heap_fd (heap_get_mem hd)).1
  · intro c rest rets hcq
    have herr : ∀ e, dispatch s c rets = .error e →
        e = Abort.null_sqe ∨ e = Abort.accept_script_ended := by
      intro e he
      rcases dispatch_error hs.inv hcq rets e he with h1 | ⟨h1, _⟩
      · exact Or.inl h1
      · exact Or.inr h1
    refine ⟨?_, ?_, ?_, ?_, ?_⟩
    · intro he
      rcases herr _ he with h1 | h1 <;> exact Abort.noConfusion h1
    · intro he
      rcases herr _ he with h1 | h1 <;> exact Abort.noConfusion h1
    · intro he
      rcases herr _ he with h1 | h1 <;> exact Abort.noConfusion h1
    · intro hm hroom
      obtain ⟨s1, h1, _⟩ := dispatch_progress hs.inv hcq rets (fun _ => hm) hroom
      exact ⟨s1, h1⟩
    · intro htag
      rw [dispatch_listen s c rets htag hs.inv.listen_type, hs.inv.listen_fd]

/-- C10 at the sample run, with the read on descriptor 5 completed. -/
theorem C10_listener_record_is_stable_witness :
    Reachable (ex_read_done (-104)) ∧
    (ex_read_done (-104)).listen_data.type_ = kListen ∧
    (pending (ex_read_done (-104))).count Tag.listen_data = 1 ∧
    dispatch (ex_read_done (-104)) { user_data := Tag.heap 0, res := -104 } []
      ≠ .error Abort.delete_of_stack_record :=
  ⟨ex_read_err_reachable,
   (C10_listener_record_is_stable _ (ex_read_err_reachable)).1,
   (C10_listener_record_is_stable _ (ex_read_err_reachable)).2.2.2.1,
   ((C10_listener_record_is_stable _ (ex_read_err_reachable)).2.2.2.2.2
      { user_data := Tag.heap 0, res := -104 } [] [] rfl).2.1⟩

/-! ## Port selection -/

theorem digitChar_spec : ∀ k, k < 10 →
    (Nat.digitChar k).isDigit = true ∧ (Nat.digitChar k).toNat - 48 = k := by
  decide

theorem digits_value_append (pre : List Char) (d : Char) :
    digits_value (pre ++ [d]) = 10 * digits_value pre + (d.toNat - 48) := by
  simp [digits_value, List.foldl_append]

theorem toDigitsCore_spec (fuel : Nat) : ∀ (n : Nat) (acc : List Char), n < fuel →
    ∃ pre, Nat.toDigitsCore 10 fuel n acc = pre ++ acc ∧ pre ≠ [] ∧
      (∀ c ∈ pre, c.isDigit = true) ∧ digits_value pre = n := by
  induction fuel with
  | zero => intro n acc h; omega
  | succ fuel ih =>
    intro n acc h
    have hd := digitChar_spec (n % 10) (Nat.mod_lt _ (by decide))
    by_cases h0 : n / 10 = 0
    · refine ⟨[Nat.digitChar (n % 10)], ?_, by simp, ?_, ?_⟩
      · simp [Nat.toDigitsCore, h0]
      · intro c hc
        rw [List.mem_singleton.mp hc]
        exact hd.1
      · have := digits_value_append [] (Nat.digitChar (n % 10))
        simp only [List.nil_append] at this
        rw [this, hd.2]
        simp only [digits_value, List.foldl_nil]
        omega
    · have hlt : n / 10 < fuel := by omega
      obtain ⟨pre, h1, _, h3, h4⟩ := ih (n / 10) (Nat.digitChar (n % 10) :: acc) hlt
      refine ⟨pre ++ [Nat.digitChar (n % 10)], ?_, by simp, ?_, ?_⟩
      · simp [Nat.toDigitsCore, h0, h1]
      · intro c hc
        rcases List.mem_append.mp hc with hc | hc
        · exact h3 c hc
        · rw [List.mem_singleton.mp hc]
          exact hd.1
      · rw [digits_value_append, h4, hd.2]
        omega

theorem toString_spec (n : Nat) :
    (toString n).toList ≠ [] ∧ (∀ c ∈ (toString n).toList, c.isDigit = true) ∧
      digits_value (toString n).toList = n := by
  obtain ⟨pre, h1, h2, h3, h4⟩ := toDigitsCore_spec (n + 1) n [] (Nat.lt_succ_self n)
  have e : (toString n).toList = pre := by
    show (Nat.repr n).data = pre
    simp only [Nat.repr, Nat.toDigits, h1, List.append_nil, List.asString]
  rw [e]
  exact ⟨h2, h3, h4⟩

theorem digit_not_space {c : Char} (h : c.isDigit = true) :
    isspace c = false ∧ c ≠ '-' ∧ c ≠ '+' := by
  have hv : 48 ≤ c.toNat ∧ c.toNat ≤ 57 := by
    simp only [Char.isDigit, Bool.and_eq_true, decide_eq_true_eq] at h
    exact ⟨h.1, h.2⟩
  refine ⟨?_, ?_, ?_⟩
  · simp only [isspace, Bool.or_eq_false_iff, Bool.and_eq_false_iff, decide_eq_false_iff_not]
    omega
  · intro e
    rw [e] at hv
    exact absurd hv (by decide)
  · intro e
    rw [e] at hv
    exact absurd hv (by decide)

theorem stoi_digits (str : String) (hne : str.toList ≠ [])
    (hd : ∀ c ∈ str.toList, c.isDigit = true) (hmax : digits_value str.toList ≤ 2147483647) :
    stoi str = .ok (digits_value str.toList : Int) := by
  obtain ⟨c, cs, hcs⟩ := List.exists_cons_of_ne_nil hne
  have hc := digit_not_space (hd c (by rw [hcs]; exact List.mem_cons_self _ _))
  have h1 : str.toList.dropWhile isspace = str.toList := by
    rw [hcs, List.dropWhile_cons, hc.1]
    rfl
  have h2 : str.toList.head? = some c := by rw [hcs]; rfl
  have h3 : str.toList.takeWhile Char.isDigit = str.toList :=
    List.takeWhile_eq_self_iff.mpr hd
  have hc1 : ¬ c = '-' := hc.2.1
  have hc2 : ¬ c = '+' := hc.2.2
  simp only [stoi, h1, h2, Option.some.injEq, hc1, hc2, or_self, if_false, h3, hne,
    decide_False, Bool.false_eq_true]
  have hlo : ¬ ((digits_value str.toList : Int) < -2147483648 ∨
      2147483647 < (digits_value str.toList : Int)) := by omega
  simp only [hlo, if_false]

theorem stoi_digits_big (str : String) (hne : str.toList ≠ [])
    (hd : ∀ c ∈ str.toList, c.isDigit = true) (hmax : 2147483647 < digits_value str.toList) :
    stoi str = .error StoiError.out_of_range := by
  obtain ⟨c, cs, hcs⟩ := List.exists_cons_of_ne_nil hne
  have hc := digit_not_space (hd c (by rw [hcs]; exact List.mem_cons_self _ _))
  have h1 : str.toList.dropWhile isspace = str.toList := by
    rw [hcs, List.dropWhile_cons, hc.1]
    rfl
  have h2 : str.toList.head? = some c := by rw [hcs]; rfl
  have h3 : str.toList.takeWhile Char.isDigit = str.toList :=
    List.takeWhile_eq_self_iff.mpr hd
  have hc1 : ¬ c = '-' := hc.2.1
  have hc2 : ¬ c = '+' := hc.2.2
  simp only [stoi, h1, h2, Option.some.injEq, hc1, hc2, or_self, if_false, h3, hne,
    decide_False, Bool.false_eq_true]
  have hhi : ((digits_value str.toList : Int) < -2147483648 ∨
      2147483647 < (digits_value str.toList : Int)) := by omega
  simp only [hhi, if_true]

theorem dropWhile_spaces (ws : List Char) (x : Char) (r : List Char)
    (hws : ∀ c ∈ ws, isspace c = true) (hx : isspace x = false) :
    (ws ++ x :: r).dropWhile isspace = x :: r := by
  induction ws with
  | nil => simp [List.dropWhile_cons, hx]
  | cons w ws ih =>
    have hw := hws w (List.mem_cons_self _ _)
    simp only [List.cons_append, List.dropWhile_cons, hw, if_true]
    exact ih (fun c hc => hws c (List.mem_cons_of_mem _ hc))

theorem sign_not_space : isspace '-' = false ∧ isspace '+' = false := by decide

theorem stoi_invalid_iff (str : String) :
    stoi str = .error StoiError.invalid_argument ↔ ¬ StartsWithNumber str.toList := by
  constructor
  · intro h hsw
    obtain ⟨ws, sign, d, tail, hl, hws, hsign, hd⟩ := hsw
    have hdn := digit_not_space hd
    have hd1 : ¬ d = '-' := hdn.2.1
    have hd2 : ¬ d = '+' := hdn.2.2
    have hds : (d :: tail).takeWhile Char.isDigit ≠ [] := by
      simp [List.takeWhile_cons, hd]
    have hno : ∀ v : Int, (if v < -2147483648 ∨ 2147483647 < v
        then (Except.error StoiError.out_of_range : Except StoiError Int) else .ok v)
          ≠ .error StoiError.invalid_argument := by
      intro v
      split <;> simp
    rcases hsign with e | e | e
    · subst e
      have hcs : str.toList.dropWhile isspace = d :: tail := by
        rw [hl, List.append_nil]
        exact dropWhile_spaces ws d tail hws hdn.1
      simp only [stoi, hcs, List.head?_cons, Option.some.injEq, hd1, hd2, or_self, if_false,
        hds] at h
      exact hno _ h
    · subst e
      have hcs : str.toList.dropWhile isspace = '-' :: d :: tail := by
        rw [hl, List.append_assoc]
        exact dropWhile_spaces ws '-' (d :: tail) hws sign_not_space.1
      simp only [stoi, hcs, List.head?_cons, true_or, if_true, List.tail_cons, hds,
        if_false] at h
      exact hno _ h
    · subst e
      have hcs : str.toList.dropWhile isspace = '+' :: d :: tail := by
        rw [hl, List.append_assoc]
        exact dropWhile_spaces ws '+' (d :: tail) hws sign_not_space.2
      simp only [stoi, hcs, List.head?_cons, or_true, if_true, List.tail_cons, hds,
        if_false] at h
      exact hno _ h
  · intro hsw
    by_contra hne
    apply hsw
    have hsplit : str.toList = str.toList.takeWhile isspace ++ str.toList.dropWhile isspace :=
      (List.takeWhile_append_dropWhile isspace str.toList).symm
    have hws : ∀ c ∈ str.toList.takeWhile isspace, isspace c = true :=
      fun c hc => (List.mem_takeWhile_imp hc)
    generalize hcs : str.toList.dropWhile isspace = cs at hsplit hne
    generalize hwd : str.toList.takeWhile isspace = ws at hsplit hws
    have key : ∀ body : List Char, body.takeWhile Char.isDigit ≠ [] →
        ∃ d tail, body = d :: tail ∧ d.isDigit = true := by
      intro body hb
      cases body with
      | nil => simp at hb
      | cons d tail =>
        refine ⟨d, tail, rfl, ?_⟩
        by_contra hdd
        simp [List.takeWhile_cons, hdd] at hb
    have hds : (if cs.head? = some '-' ∨ cs.head? = some '+' then cs.tail else cs).takeWhile
        Char.isDigit ≠ [] := by
      intro hempty
      apply hne
      simp only [stoi, hcs, hempty, if_true]
    obtain ⟨d, tail, hbody, hd⟩ := key _ hds
    by_cases hsg : cs.head? = some '-' ∨ cs.head? = some '+'
    · simp only [hsg, if_true] at hbody
      cases cs with
      | nil => simp at hsg
      | cons x xs =>
        simp only [List.tail_cons] at hbody
        simp only [List.head?_cons, Option.some.injEq] at hsg
        refine ⟨ws, [x], d, tail, ?_, hws, ?_, hd⟩
        · rw [hsplit, hbody]
          simp
        · rcases hsg with e | e
          · exact Or.inr (Or.inl (by rw [e]))
          · exact Or.inr (Or.inr (by rw [e]))
    · simp only [hsg, if_false] at hbody
      refine ⟨ws, [], d, tail, ?_, hws, Or.inl rfl, hd⟩
      rw [hsplit, hbody]
      simp

theorem takeWhile_digits (ds tail : List Char) (hds : ∀ c ∈ ds, c.isDigit = true)
    (htail : ∀ c, tail.head? = some c → c.isDigit = false) :
    (ds ++ tail).takeWhile Char.isDigit = ds := by
  induction ds with
  | nil =>
    cases tail with
    | nil => rfl
    | cons t ts =>
      have := htail t rfl
      simp [List.takeWhile_cons, this]
  | cons x xs ih =>
    have hx := hds x (List.mem_cons_self _ _)
    simp only [List.cons_append, List.takeWhile_cons, hx, if_true]
    rw [ih (fun c hc => hds c (List.mem_cons_of_mem _ hc))]

theorem stoi_leading_number (str : String) (ws sign ds tail : List Char)
    (hl : str.toList = ws ++ sign ++ ds ++ tail) (hws : ∀ c ∈ ws, isspace c = true)
    (hsign : sign = [] ∨ sign = ['-'] ∨ sign = ['+']) (hne : ds ≠ [])
    (hds : ∀ c ∈ ds, c.isDigit = true)
    (htail : ∀ c, tail.head? = some c → c.isDigit = false) :
    stoi str =
      if signed_value sign ds < -2147483648 ∨ 2147483647 < signed_value sign ds
      then .error StoiError.out_of_range else .ok (signed_value sign ds) := by
  obtain ⟨d, ds2, hdd⟩ := List.exists_cons_of_ne_nil hne
  have hd : d.isDigit = true := hds d (by rw [hdd]; exact List.mem_cons_self _ _)
  have hdn := digit_not_space hd
  have hd1 : ¬ d = '-' := hdn.2.1
  have hd2 : ¬ d = '+' := hdn.2.2
  have htw := takeWhile_digits ds tail hds htail
  rcases hsign with e | e | e
  · subst e
    have hcs : str.toList.dropWhile isspace = ds ++ tail := by
      rw [hl, List.append_nil, List.append_assoc, hdd, List.cons_append]
      exact dropWhile_spaces ws d (ds2 ++ tail) hws hdn.1
    have hh : (ds ++ tail).head? = some d := by rw [hdd]; rfl
    simp only [stoi, hcs, hh, Option.some.injEq, hd1, hd2, or_self, if_false, htw, hne,
      decide_False, Bool.false_eq_true, signed_value, List.nil_eq, reduceCtorEq]
  · subst e
    have hcs : str.toList.dropWhile isspace = '-' :: (ds ++ tail) := by
      rw [hl, List.append_assoc, List.append_assoc]
      exact dropWhile_spaces ws '-' (ds ++ tail) hws sign_not_space.1
    simp only [stoi, hcs, List.head?_cons, true_or, if_true, List.tail_cons, htw, hne,
      if_false, decide_True, signed_value]
  · subst e
    have hcs : str.toList.dropWhile isspace = '+' :: (ds ++ tail) := by
      rw [hl, List.append_assoc, List.append_assoc]
      exact dropWhile_spaces ws '+' (ds ++ tail) hws sign_not_space.2
    have hpm : ¬ ('+' : Char) = '-' := by decide
    have hpm2 : ¬ (['+'] : List Char) = ['-'] := by decide
    simp only [stoi, hcs, List.head?_cons, or_true, if_true, List.tail_cons, htw, hne,
      if_false, Option.some.injEq, hpm, decide_False, Bool.false_eq_true, signed_value, hpm2]

/-- C9 fails as stated: the argument 8080x is not a number, yet startup goes
on to create the socket with port 8080; and the argument 70000 is a decimal
number, yet the port is 4464. -/
theorem C9_nonnumeric_accepted_and_large_wraps :
    main_to_socket ["echo_server", "8080x"] =
      .ok [StartupCall.printf_listen 8080, StartupCall.socket] ∧
    main_to_socket ["echo_server", "70000"] =
      .ok [StartupCall.printf_listen 4464, StartupCall.socket] :=
  ⟨rfl, rfl⟩

/-- C9 as amended: without a first argument the port is 42390.  A first
argument that starts with a number, that is white space, at most one sign and
a run of decimal digits, followed by any text that does not go on with a digit,
is read as that number and the text after it is ignored: if the signed value
lies in the range of int, the port is the value modulo 65536, otherwise
startup fails with std::out_of_range.  In particular with the decimal numeral
of a number n up to 2147483647 the port is n modulo 65536, which is n itself
for n below 65536, and for a larger n startup fails with std::out_of_range.
Startup fails with std::invalid_argument, before anything is printed and
before the socket is created, exactly for the first arguments that do not
start with a number. -/
theorem C9_port_selection_as_parsed :
    (∀ argv : List String, argv.length < 2 →
      main_to_socket argv = .ok [StartupCall.printf_listen 42390, StartupCall.socket]) ∧
    (∀ (prog arg : String) (rest : List String) (ws sign ds tail : List Char),
      arg.toList = ws ++ sign ++ ds ++ tail → (∀ c ∈ ws, isspace c = true) →
      (sign = [] ∨ sign = ['-'] ∨ sign = ['+']) → ds ≠ [] → (∀ c ∈ ds, c.isDigit = true) →
      (∀ c, tail.head? = some c → c.isDigit = false) →
      main_to_socket (prog :: arg :: rest) =
        if signed_value sign ds < -2147483648 ∨ 2147483647 < signed_value sign ds
        then .error StoiError.out_of_range
        else .ok [StartupCall.printf_listen (signed_value sign ds % 65536).toNat,
                  StartupCall.socket]) ∧
    (∀ (prog : String) (n : Nat) (rest : List String), n ≤ 2147483647 →
      main_to_socket (prog :: toString n :: rest) =
        .ok [StartupCall.printf_listen (n % 65536), StartupCall.socket]) ∧
    (∀ (prog : String) (n : Nat) (rest : List String), n < 65536 →
      main_to_socket (prog :: toString n :: rest) =
        .ok [StartupCall.printf_listen n, StartupCall.socket]) ∧
    (∀ (prog : String) (n : Nat) (rest : List String), 2147483647 < n →
      main_to_socket (prog :: toString n :: rest) = .error StoiError.out_of_range) ∧
    (∀ (prog arg : String) (rest : List String),
      main_to_socket (prog :: arg :: rest) = .error StoiError.invalid_argument ↔
        ¬ StartsWithNumber arg.toList) := by
  have hnum : ∀ (prog : String) (n : Nat) (rest : List String), n ≤ 2147483647 →
      main_to_socket (prog :: toString n :: rest) =
        .ok [StartupCall.printf_listen (n % 65536), StartupCall.socket] := by
    intro prog n rest hn
    obtain ⟨h1, h2, h3⟩ := toString_spec n
    have hst := stoi_digits (toString n) h1 h2 (by rw [h3]; exact hn)
    rw [h3] at hst
    have hu : to_uint16 (n : Int) = n % 65536 := by
      unfold to_uint16
      omega
    simp [main_to_socket, parse_port, hst, hu]
  refine ⟨?_, ?_, hnum, ?_, ?_, ?_⟩
  · intro argv h
    have : ¬ 2 ≤ argv.length := by omega
    simp [main_to_socket, parse_port, this, DEFAULT_PORT]
  · intro prog arg rest ws sign ds tail hl hws hsign hne hds htail
    have hst := stoi_leading_number arg ws sign ds tail hl hws hsign hne hds htail
    by_cases hr : signed_value sign ds < -2147483648 ∨ 2147483647 < signed_value sign ds
    · simp only [hr, if_true] at hst ⊢
      simp [main_to_socket, parse_port, hst]
    · simp only [hr, if_false] at hst ⊢
      simp [main_to_socket, parse_port, hst, to_uint16]
  · intro prog n rest hn
    rw [hnum prog n rest (by omega), Nat.mod_eq_of_lt hn]
  · intro prog n rest hn
    obtain ⟨h1, h2, h3⟩ := toString_spec n
    have hst := stoi_digits_big (toString n) h1 h2 (by rw [h3]; exact hn)
    simp [main_to_socket, parse_port, hst]
  · intro prog arg rest
    rw [← stoi_invalid_iff]
    have hlen : 2 ≤ (prog :: arg :: rest).length := by simp
    cases hst : stoi arg with
    | error e => simp [main_to_socket, parse_port, hst]
    | ok v => simp [main_to_socket, parse_port, hst]

/-- C9 as amended, at an argument with white space, a sign and text behind the
number: the port is -1 modulo 65536. -/
theorem C9_port_selection_as_parsed_witness :
    main_to_socket ["echo_server", " -1x"] =
      .ok [StartupCall.printf_listen 65535, StartupCall.socket] :=
  C9_port_selection_as_parsed.2.1 "echo_server" " -1x" [] [' '] ['-'] ['1'] ['x'] rfl
    (by decide) (by decide) (by decide) (by decide) (by decide)

end EchoServer
